import Mathlib

/-!
Shallow embedding of the explanation-generation pipeline of
`app/ai_utils.py` in the `buat-pembahasan` repository: option-correctness
inference, score ordering, category classification, tolerant JSON response
parsing/repair, and reason-text normalization, together with proofs of the
behavioural properties stated for them.

Modelling conventions:
* Python strings are `List Char` (`Str`); spreadsheet cells that may be
  missing (`NaN`) are `Option`; Python floats are rationals (`ℚ`).
* Character predicates (`str.isalpha`, `str.lower`, `\s`, …) are modelled
  on the Latin-1 range, which covers every character the pipeline's rules
  mention; code points above U+00FF are treated as plain letters-free text.
* `html.unescape` is modelled on the common named entities and decimal
  numeric references; the claims never depend on exotic entities.
-/

namespace Pembahasan

/-- Python strings are modelled as lists of characters. -/
abbrev Str := List Char

/-- The apostrophe character (code point 39), a member of the word-character
class `[A-Za-zÀ-ÿ']` used by the reason-normalization regexes. -/
def apos : Char := Char.ofNat 39

/-- Left brace character. -/
def lbrace : Char := Char.ofNat 123

/-- Right brace character. -/
def rbrace : Char := Char.ofNat 125

/-- Models Python whitespace (`\s`, `str.strip()`): space, tab, newline,
carriage return, vertical tab, form feed, and the Latin-1 non-breaking
space. -/
def pyIsSpace (c : Char) : Bool :=
  c == ' ' || c == '\t' || c == '\n' || c == '\r' ||
    c == Char.ofNat 11 || c == Char.ofNat 12 || c == Char.ofNat 160

/-- `str.lstrip()` with no argument: drop leading whitespace. -/
def pyLStrip (l : Str) : Str := l.dropWhile pyIsSpace

/-- `str.rstrip()` with no argument: drop trailing whitespace. -/
def pyRStrip (l : Str) : Str := (l.reverse.dropWhile pyIsSpace).reverse

/-- `str.strip()` with no argument. -/
def pyStrip (l : Str) : Str := pyRStrip (pyLStrip l)

/-- `str.lstrip(chars)`: drop leading characters belonging to `cs`. -/
def pyLStripSet (cs : Str) (l : Str) : Str := l.dropWhile (fun c => c ∈ cs)

/-- `str.strip(chars)`: drop the given characters from both ends. -/
def pyStripSet (cs : Str) (l : Str) : Str :=
  ((l.dropWhile (fun c => c ∈ cs)).reverse.dropWhile (fun c => c ∈ cs)).reverse

/-- Models `str.lower()` of one character on the Latin-1 range
(`A`–`Z` and `À`–`Þ` except `×` gain 32). -/
def pyLowerChar (c : Char) : Char :=
  if ('A' ≤ c ∧ c ≤ 'Z') ∨ (('À' ≤ c ∧ c ≤ 'Þ') ∧ c ≠ '×') then
    Char.ofNat (c.toNat + 32)
  else c

/-- Models `str.upper()` of one character on the Latin-1 range. -/
def pyUpperChar (c : Char) : Char :=
  if ('a' ≤ c ∧ c ≤ 'z') ∨ (('à' ≤ c ∧ c ≤ 'þ') ∧ c ≠ '÷') then
    Char.ofNat (c.toNat - 32)
  else c

/-- `str.lower()`. -/
def pyLower (l : Str) : Str := l.map pyLowerChar

/-- Models `str.isalpha()` of one character on the Latin-1 range. -/
def pyIsAlpha (c : Char) : Bool :=
  ('A' ≤ c && c ≤ 'Z') || ('a' ≤ c && c ≤ 'z') ||
    ('À' ≤ c && c ≤ 'Ö') || ('Ø' ≤ c && c ≤ 'ö') || ('ø' ≤ c && c ≤ 'ÿ')

/-- Models `str.isupper()` of one character on the Latin-1 range. -/
def pyIsUpperChar (c : Char) : Bool :=
  ('A' ≤ c && c ≤ 'Z') || ('À' ≤ c && c ≤ 'Ö') || ('Ø' ≤ c && c ≤ 'Þ')

/-- `str.isdigit()` of one character (ASCII digits). -/
def pyIsDigit (c : Char) : Bool := '0' ≤ c && c ≤ '9'

/-- The regex word class `[A-Za-zÀ-ÿ']` used by
`_extract_proper_tokens` and `_normalize_reason_capital`.  Note that the
codepoint range `À-ÿ` of the regex literally includes `×` and `÷`. -/
def wordClass (c : Char) : Bool :=
  ('A' ≤ c && c ≤ 'Z') || ('a' ≤ c && c ≤ 'z') || ('À' ≤ c && c ≤ 'ÿ') || c == apos

/-- `re.sub(r"\s+", " ", text)`: collapse every maximal whitespace run to a
single space. -/
def collapseWS : Str → Str
  | [] => []
  | c :: cs =>
    if pyIsSpace c then ' ' :: collapseWS (cs.dropWhile pyIsSpace)
    else c :: collapseWS cs
termination_by l => l.length
decreasing_by
  · exact Nat.lt_succ_of_le (List.dropWhile_sublist _).length_le
  · simp

/-- Python substring test `needle in haystack`. -/
def pyContains (haystack needle : Str) : Bool :=
  (List.range (haystack.length + 1)).any (fun k => needle.isPrefixOf (haystack.drop k))

/-- `str.split()` with no argument: split on whitespace runs, dropping
empty pieces. -/
def pySplitWS : Str → List Str
  | [] => []
  | c :: cs =>
    if pyIsSpace c then pySplitWS (cs.dropWhile pyIsSpace)
    else (c :: cs.takeWhile (fun d => !pyIsSpace d)) :: pySplitWS (cs.dropWhile (fun d => !pyIsSpace d))
termination_by l => l.length
decreasing_by
  · exact Nat.lt_succ_of_le (List.dropWhile_sublist _).length_le
  · exact Nat.lt_succ_of_le (List.dropWhile_sublist _).length_le

/-- Models `html.unescape` on the named entities
`&amp; &lt; &gt; &quot; &apos; &nbsp;` and decimal numeric references
`&#NNNN;`; all other text is returned unchanged.
(The source uses Python's full entity table; no claim depends on other
entities.) -/
def htmlUnescape : Str → Str
  | [] => []
  | c :: cs =>
    if c = '&' then
      if "amp;".toList.isPrefixOf cs then '&' :: htmlUnescape (cs.drop 4)
      else if "lt;".toList.isPrefixOf cs then '<' :: htmlUnescape (cs.drop 3)
      else if "gt;".toList.isPrefixOf cs then '>' :: htmlUnescape (cs.drop 3)
      else if "quot;".toList.isPrefixOf cs then '"' :: htmlUnescape (cs.drop 5)
      else if "apos;".toList.isPrefixOf cs then apos :: htmlUnescape (cs.drop 5)
      else if "nbsp;".toList.isPrefixOf cs then Char.ofNat 160 :: htmlUnescape (cs.drop 5)
      else if cs.head? = some '#' then
        let digits := (cs.drop 1).takeWhile pyIsDigit
        let rest := (cs.drop 1).dropWhile pyIsDigit
        if digits ≠ [] ∧ rest.head? = some ';' then
          let n := digits.foldl (fun acc d => acc * 10 + (d.toNat - 48)) 0
          Char.ofNat (n % 1114112) :: htmlUnescape (rest.drop 1)
        else c :: htmlUnescape cs
      else c :: htmlUnescape cs
    else c :: htmlUnescape cs
termination_by l => l.length
decreasing_by
  all_goals simp only [List.length_cons, List.length_drop]
  all_goals first
    | omega
    | · have h1 : ((cs.drop 1).dropWhile pyIsDigit).length ≤ (cs.drop 1).length :=
          (List.dropWhile_sublist _).length_le
        simp only [List.length_drop] at h1 ⊢
        omega

/-- `re.sub(r"<[^>]+>", " ", text)`: replace every `<`…`>` span (with at
least one character between the brackets) by a single space. -/
def removeTags : Str → Str
  | [] => []
  | c :: cs =>
    if c = '<' then
      match h : cs.findIdx? (fun d => d = '>') with
      | some k =>
        if 1 ≤ k then ' ' :: removeTags (cs.drop (k + 1))
        else c :: removeTags cs
      | none => c :: removeTags cs
    else c :: removeTags cs
termination_by l => l.length
decreasing_by
  all_goals simp only [List.length_cons, List.length_drop]
  all_goals omega

/-- `_sanitize_text` (ai_utils.py:19): unescape entities, strip markup
tags, turn newlines into spaces, collapse whitespace, trim. -/
def sanitizeText (s : Str) : Str :=
  pyStrip (collapseWS (((removeTags (htmlUnescape s)).map
    (fun c => if c = '\n' ∨ c = '\r' then ' ' else c))))

/-- `_normalize_label` (ai_utils.py:29) applied to a string value:
collapse whitespace, strip, lower-case. -/
def normalizeLabel (s : Str) : Str := pyLower (pyStrip (collapseWS s))

/-- Models `str(cell)` for a spreadsheet cell that may be missing:
a missing cell is a float `NaN`, whose `str()` is `"nan"`. -/
def cellStr (c : Option Str) : Str :=
  match c with
  | none => "nan".toList
  | some s => s

/-- `_normalize_label(row.get(col))` for a possibly-missing cell. -/
def normalizeLabelCell (c : Option Str) : Str := normalizeLabel (cellStr c)

/-- `str.upper()`. -/
def pyUpperStr (l : Str) : Str := l.map pyUpperChar

/-!  ## The row model

One spreadsheet row (§3 of the spec, `REQUIRED_COLUMNS` of `app/config.py`),
restricted to the fields the pipeline reads.  A text cell is `Option Str`
(`none` = missing/NaN); a score cell is `Option ℚ` (`none` models both a
missing cell and a value `float()` cannot parse, exactly the two cases
`_extract_option_scores` maps to `None`). -/

structure Row where
  category : Option Str := none
  subCategory : Option Str := none
  question : Option Str := none
  textA : Option Str := none
  textB : Option Str := none
  textC : Option Str := none
  textD : Option Str := none
  textE : Option Str := none
  scoreA : Option ℚ := none
  scoreB : Option ℚ := none
  scoreC : Option ℚ := none
  scoreD : Option ℚ := none
  scoreE : Option ℚ := none
  optionNumber : Option Str := none
  optionNumberScore : Option ℚ := none
  answerHeaderTrue : Option Str := none
  explanation : Option Str := none
  explanationAI : Option Str := none

/-- The text cell of lettered option slot `i` (0–4 = A–E). -/
def optionTextCell (row : Row) (i : ℕ) : Option Str :=
  match i with
  | 0 => row.textA
  | 1 => row.textB
  | 2 => row.textC
  | 3 => row.textD
  | 4 => row.textE
  | _ => none

/-- The score cell of option slot `i` in `OPTION_COLUMNS` order
(0–4 = A–E, 5 = the `Pilihan`/`option_number_score` slot). -/
def scoreCell (row : Row) (i : ℕ) : Option ℚ :=
  match i with
  | 0 => row.scoreA
  | 1 => row.scoreB
  | 2 => row.scoreC
  | 3 => row.scoreD
  | 4 => row.scoreE
  | 5 => row.optionNumberScore
  | _ => none

/-!  ## Category classifier (`_should_skip_row` and friends) -/

/-- `_should_skip_row` (ai_utils.py:38). -/
def shouldSkipRow (cat sub : Option Str) : Option Str :=
  if normalizeLabelCell cat ≠ "tiu".toList then none
  else if "figural".toList.isPrefixOf (normalizeLabelCell sub) then
    some "subkategori TIU figural di-skip.".toList
  else if "numerik deret".toList.isPrefixOf (normalizeLabelCell sub) then
    some "subkategori TIU numerik deret di-skip.".toList
  else none

/-- `_is_tiu_numerik` (ai_utils.py:53). -/
def isTiuNumerik (cat sub : Option Str) : Bool :=
  normalizeLabelCell cat = "tiu".toList ∧
    "numerik".toList.isPrefixOf (normalizeLabelCell sub) ∧
    ¬ "numerik deret".toList.isPrefixOf (normalizeLabelCell sub)

/-- `_is_verbal_silogisme` (ai_utils.py:63). -/
def isVerbalSilogisme (cat sub : Option Str) : Bool :=
  normalizeLabelCell cat = "tiu".toList ∧ normalizeLabelCell sub = "verbal silogisme".toList

/-- `_is_verbal_analogi` (ai_utils.py:69). -/
def isVerbalAnalogi (cat sub : Option Str) : Bool :=
  normalizeLabelCell cat = "tiu".toList ∧ normalizeLabelCell sub = "verbal analogi".toList

/-- `_is_verbal_analitis` (ai_utils.py:75). -/
def isVerbalAnalitis (cat sub : Option Str) : Bool :=
  normalizeLabelCell cat = "tiu".toList ∧ normalizeLabelCell sub = "verbal analitis".toList

/-!  ## Option model and score ordering -/

/-- `_extract_option_scores` (ai_utils.py:81): the five A–E score cells. -/
def extractOptionScores (row : Row) : List (Option ℚ) :=
  [row.scoreA, row.scoreB, row.scoreC, row.scoreD, row.scoreE]

/-- One entry of `build_prompt`'s `option_map` (ai_utils.py:551–558):
empty unless the cell is present with non-blank text, else sanitized. -/
def optMapEntry (c : Option Str) : Str :=
  match c with
  | none => []
  | some t => if pyStrip t = [] then [] else sanitizeText t

/-- `option_map` as built by `build_prompt` (ai_utils.py:549–558). -/
def buildOptionMap (row : Row) : List Str :=
  (List.range 5).map (fun i => optMapEntry (optionTextCell row i))

/-- The first component of `_score_sort_key` (ai_utils.py:109), negated:
the score of index `idx`, with a missing score reading as `⊥`
(Python's `float("-inf")`).  Python sorts ascending by
`(-score, idx)`, i.e. descending by this value with ties broken by
ascending index. -/
def scoreValAt (scores : List (Option ℚ)) (idx : ℕ) : WithBot ℚ :=
  match scores.getD idx none with
  | none => ⊥
  | some q => (q : WithBot ℚ)

/-- The non-strict total order realising Python's sort key
`(-score_value, idx)` from `_score_sort_key`. -/
def scoreKeyLE (scores : List (Option ℚ)) (i j : ℕ) : Prop :=
  scoreValAt scores j < scoreValAt scores i ∨
    (scoreValAt scores i = scoreValAt scores j ∧ i ≤ j)

/-- The strict "comes before" relation of the claimed ordering:
strictly greater score (a missing score reading as `−∞`), or equal score
and smaller original option index. -/
def scoreOrdBefore (scores : List (Option ℚ)) (i j : ℕ) : Prop :=
  scoreValAt scores j < scoreValAt scores i ∨
    (scoreValAt scores i = scoreValAt scores j ∧ i < j)

instance (scores : List (Option ℚ)) : DecidableRel (scoreKeyLE scores) := by
  intro i j
  unfold scoreKeyLE
  infer_instance

instance (scores : List (Option ℚ)) : IsTotal ℕ (scoreKeyLE scores) where
  total i j := by
    unfold scoreKeyLE
    rcases lt_trichotomy (scoreValAt scores i) (scoreValAt scores j) with h | h | h
    · exact Or.inr (Or.inl h)
    · rcases Nat.le_total i j with hij | hij
      · exact Or.inl (Or.inr ⟨h, hij⟩)
      · exact Or.inr (Or.inr ⟨h.symm, hij⟩)
    · exact Or.inl (Or.inl h)

instance (scores : List (Option ℚ)) : IsTrans ℕ (scoreKeyLE scores) where
  trans i j k hij hjk := by
    unfold scoreKeyLE at *
    rcases hij with h1 | ⟨h1, h1'⟩ <;> rcases hjk with h2 | ⟨h2, h2'⟩
    · exact Or.inl (h2.trans h1)
    · exact Or.inl (h2 ▸ h1)
    · exact Or.inl (h1 ▸ h2)
    · exact Or.inr ⟨h1.trans h2, h1'.trans h2'⟩

/-- The dedup-and-filter loop of `_order_indices` (ai_utils.py:122–130):
drop duplicates and indices that are out of range or whose option text is
empty, keeping first occurrences in order. -/
def orderFilter (optionMap : List Str) : List ℕ → List ℕ → List ℕ
  | _, [] => []
  | seen, idx :: rest =>
    if idx ∈ seen ∨ optionMap.length ≤ idx then orderFilter optionMap seen rest
    else if optionMap.getD idx [] = [] then orderFilter optionMap seen rest
    else idx :: orderFilter optionMap (idx :: seen) rest

/-- `_order_indices` (ai_utils.py:115): dedup/filter, then sort by
descending score with ties in original option order.  Python's
`sorted` is a stable sort by the key `(-score, idx)`; since that key is
injective and the filtered list is duplicate-free, any sorting algorithm
agrees with it, and we use insertion sort by the matching non-strict
total order. -/
def orderIndices (indices : List ℕ) (scores : List (Option ℚ)) (optionMap : List Str) : List ℕ :=
  List.insertionSort (scoreKeyLE scores) (orderFilter optionMap [] indices)

/-!  ## Correctness inference (`_infer_correct_indices`) -/

/-- The letter-code lookup table of `_infer_correct_indices`
(ai_utils.py:462–473). -/
def letterIndex (s : Str) : Option ℕ :=
  if s = "A".toList then some 0
  else if s = "B".toList then some 1
  else if s = "C".toList then some 2
  else if s = "D".toList then some 3
  else if s = "E".toList then some 4
  else if s = "PILIHAN A".toList then some 0
  else if s = "PILIHAN B".toList then some 1
  else if s = "PILIHAN C".toList then some 2
  else if s = "PILIHAN D".toList then some 3
  else if s = "PILIHAN E".toList then some 4
  else none

/-- `str(row.get("option_number", "")).strip().upper()`. -/
def optionNumberKey (row : Row) : Str := pyUpperStr (pyStrip (cellStr row.optionNumber))

/-- The `scored_options` list of `_infer_correct_indices`
(ai_utils.py:475–485): every slot of `OPTION_COLUMNS` (A–E then
`Pilihan`) carrying a numeric score, with its index. -/
def scoredOptions (row : Row) : List (ℕ × ℚ) :=
  (List.range 6).filterMap (fun i => (scoreCell row i).map (fun q => (i, q)))

/-- How a maximal-score slot contributes an option index
(ai_utils.py:489–499): the `Pilihan` slot (index 5) goes through the
letter table on `option_number`; a lettered slot contributes its own
index. -/
def slotIndexForMax (row : Row) (i : ℕ) : Option ℕ :=
  if i = 5 then letterIndex (optionNumberKey row) else some i

/-- `dict.fromkeys`-style dedup keeping first occurrences
(ai_utils.py:502). -/
def dedupKeepFirst (seen : List ℕ) : List ℕ → List ℕ
  | [] => []
  | x :: xs =>
    if x ∈ seen then dedupKeepFirst seen xs else x :: dedupKeepFirst (x :: seen) xs

/-- Strategy 1 of `_infer_correct_indices` (explicit scores,
ai_utils.py:487–499): all slots sharing the maximal score, mapped to
option indices. -/
def inferStrategy1 (row : Row) : List ℕ :=
  match scoredOptions row with
  | [] => []
  | p :: ps =>
    let m := (ps.map Prod.snd).foldl max p.2
    (scoredOptions row).filterMap (fun q => if q.2 = m then slotIndexForMax row q.1 else none)

/-- Strategy 3 of `_infer_correct_indices` (free-text true answer,
ai_utils.py:508–522). -/
def inferStrategy3 (row : Row) (optionTexts : List Str) : List ℕ :=
  match row.answerHeaderTrue with
  | none => []
  | some answer =>
    let cleaned := pyLower (sanitizeText answer)
    optionTexts.enum.filterMap (fun p =>
      let candidate := pyStrip (pyLower p.2)
      if candidate ≠ [] ∧
          (cleaned = candidate ∨ candidate.isSuffixOf cleaned ∨ pyContains cleaned candidate)
      then some p.1 else none)

/-- Python `explanation or explanation_ai`: a missing cell is a float
`NaN`, which is *truthy*, so it short-circuits the `or`; an empty string
falls through to the second operand. -/
def orCell (a b : Option Str) : Option Str :=
  match a with
  | none => none
  | some s => if s = [] then b else some s

/-- One attempt of the regex
`jawaban yang (?:benar|tepat)\s*[:\-]\s*(.+)` at the head of `s`
(ai_utils.py:527–530), returning the captured group. -/
def matchJawabanAt (s : Str) : Option Str :=
  let afterKW :=
    match stripLit ("jawaban yang benar".toList) s with
    | some r => some r
    | none => stripLit ("jawaban yang tepat".toList) s
  match afterKW with
  | none => none
  | some r =>
    match r.dropWhile pyIsSpace with
    | [] => none
    | c :: r2 =>
      if c = ':' ∨ c = '-' then
        let grp := (r2.dropWhile pyIsSpace).takeWhile (fun d => d ≠ '\n')
        if grp = [] then none else some grp
      else none
where
  /-- Match a literal at the head of the string, returning the rest. -/
  stripLit (lit s : Str) : Option Str :=
    if lit.isPrefixOf s then some (s.drop lit.length) else none

/-- `re.search` of the pattern above: the captured group at the first
position where the pattern matches. -/
def searchJawaban (s : Str) : Option Str :=
  ((List.range (s.length + 1)).filterMap (fun i => matchJawabanAt (s.drop i))).head?

/-- Strategy 4 of `_infer_correct_indices` (legacy explanation text,
ai_utils.py:524–541). -/
def inferStrategy4 (row : Row) (optionTexts : List Str) : List ℕ :=
  match orCell row.explanation row.explanationAI with
  | none => []
  | some expl =>
    match searchJawaban (pyLower (sanitizeText expl)) with
    | none => []
    | some seg =>
      match optionTexts.enum.find? (fun p =>
        let candidate := pyStrip (pyLower p.2)
        candidate ≠ [] ∧ (candidate.isPrefixOf seg ∨ pyContains seg candidate)) with
      | some p => [p.1]
      | none => []

/-- `_infer_correct_indices` (ai_utils.py:458–543): the four strategies
in strict priority order, stopping at the first non-empty result. -/
def inferCorrectIndices (row : Row) (optionTexts : List Str) : List ℕ :=
  let indices1 := inferStrategy1 row
  if indices1 ≠ [] then dedupKeepFirst [] indices1
  else
    let viaLetter : Option ℕ :=
      match letterIndex (optionNumberKey row) with
      | some k => if k < optionTexts.length then some k else none
      | none => none
    match viaLetter with
    | some k => [k]
    | none =>
      let s3 := inferStrategy3 row optionTexts
      if s3 ≠ [] then s3 else inferStrategy4 row optionTexts

/-!  ## The index lists built by `build_prompt` (ai_utils.py:723–733) -/

/-- `correct_indices` after `build_prompt`'s defensive reordering
(ai_utils.py:723–728): indices with non-empty option text first. -/
def bpCorrectIndices (row : Row) : List ℕ :=
  let m := buildOptionMap row
  let c := inferCorrectIndices row m
  if c ≠ [] then
    let textful := c.filter (fun i => i < m.length ∧ m.getD i [] ≠ [])
    if textful ≠ [] then textful ++ c.filter (fun i => i ∉ textful) else c
  else c

/-- `incorrect_indices` as built by `build_prompt` (ai_utils.py:730–733):
all populated indices not inferred correct, in original order. -/
def bpIncorrectIndices (row : Row) : List ℕ :=
  let m := buildOptionMap row
  let c := bpCorrectIndices row
  (List.range m.length).filter (fun i => i ∉ c ∧ i < m.length ∧ m.getD i [] ≠ [])

/-- The correct-index list as used by `generate_ai_explanations`
(ai_utils.py:846): `build_prompt`'s list re-ordered by `_order_indices`. -/
def orderedCorrectIndices (row : Row) : List ℕ :=
  orderIndices (bpCorrectIndices row) (extractOptionScores row) (buildOptionMap row)

/-- The incorrect-index list as used by `generate_ai_explanations`
(ai_utils.py:847). -/
def orderedIncorrectIndices (row : Row) : List ℕ :=
  orderIndices (bpIncorrectIndices row) (extractOptionScores row) (buildOptionMap row)

/-!  ## The `_REASON_PREFIXES` regexes (ai_utils.py:289–296)

Each pattern is a deterministic sequence of elementary steps (the
patterns never need backtracking: every greedy repetition is over a
character class disjoint from what follows).  A step consumes a prefix of
the input and yields the rest. -/

/-- One elementary regex step. -/
inductive RStep where
  /-- A case-insensitive literal (stored lower-case). -/
  | lit (w : Str)
  /-- Alternation of two case-insensitive literals. -/
  | litAlt (a b : Str)
  /-- A single case-sensitive character. -/
  | chr (c : Char)
  /-- `\s+`. -/
  | ws1
  /-- `\s*`. -/
  | ws0
  /-- `p+` for a character class. -/
  | cls1 (p : Char → Bool)
  /-- `p*` for a character class. -/
  | cls0 (p : Char → Bool)

/-- Run one step at the head of `s`, returning the remainder. -/
def runStep : RStep → Str → Option Str
  | .lit w, s => if w.isPrefixOf (pyLower s) then some (s.drop w.length) else none
  | .litAlt a b, s =>
    if a.isPrefixOf (pyLower s) then some (s.drop a.length)
    else if b.isPrefixOf (pyLower s) then some (s.drop b.length)
    else none
  | .chr c, s =>
    match s with
    | [] => none
    | d :: rest => if d = c then some rest else none
  | .ws1, s =>
    match s with
    | [] => none
    | c :: _ => if pyIsSpace c then some (s.dropWhile pyIsSpace) else none
  | .ws0, s => some (s.dropWhile pyIsSpace)
  | .cls1 p, s =>
    match s with
    | [] => none
    | c :: _ => if p c then some (s.dropWhile p) else none
  | .cls0 p, s => some (s.dropWhile p)

/-- Run a sequence of steps. -/
def runSteps : List RStep → Str → Option Str
  | [], s => some s
  | st :: sts, s => (runStep st s).bind (runSteps sts)

/-- The class `[:\-]`. -/
def colonDash (c : Char) : Bool := c == ':' || c == '-'

/-- The class `[A-E0-9]` under `re.IGNORECASE`. -/
def optLetterClass (c : Char) : Bool :=
  ('A' ≤ c && c ≤ 'E') || ('a' ≤ c && c ≤ 'e') || pyIsDigit c

/-- The six `_REASON_PREFIXES` patterns, in order. -/
def reasonPfxPatterns : List (List RStep) :=
  [ [.ws0, .lit "jawaban".toList, .ws1, .lit "yang".toList, .ws1, .lit "kurang".toList,
      .ws1, .lit "tepat".toList, .ws0, .cls0 colonDash, .ws0],
    [.ws0, .lit "jawaban".toList, .ws1, .lit "kurang".toList, .ws1, .lit "tepat".toList,
      .ws0, .cls0 colonDash, .ws0],
    [.ws0, .lit "jawaban".toList, .ws1, .lit "salah".toList, .ws0, .cls0 colonDash, .ws0],
    [.ws0, .lit "opsi".toList, .ws1, .lit "salah".toList, .ws1, .cls1 optLetterClass,
      .ws0, .cls0 colonDash, .ws0],
    [.ws0, .chr '-', .ws0, .litAlt "opsi".toList "pilihan".toList, .ws1,
      .cls1 optLetterClass, .ws0, .cls0 colonDash, .ws0],
    [.ws0, .litAlt "opsi".toList "pilihan".toList, .ws1, .cls1 optLetterClass,
      .ws0, .cls0 colonDash, .ws0] ]

/-- One pass of the `while True` body of `_strip_reason_prefix`
(ai_utils.py:303–309): try each pattern in turn (stripping after a
match), then strip leading `-`/`:`/space characters and whitespace. -/
def stripPfxOnce (s : Str) : Str :=
  pyStrip (pyLStripSet "-: ".toList
    (reasonPfxPatterns.foldl (fun cur pat =>
      match runSteps pat cur with
      | some r => pyStrip r
      | none => cur) s))

theorem runStep_sublist {st : RStep} {s r : Str} (h : runStep st s = some r) : List.Sublist r s := by
  cases st with
  | lit w =>
    simp only [runStep] at h
    split at h
    · cases h
      exact List.drop_sublist _ _
    · cases h
  | litAlt a b =>
    simp only [runStep] at h
    split at h
    · cases h
      exact List.drop_sublist _ _
    · split at h
      · cases h
        exact List.drop_sublist _ _
      · cases h
  | chr c =>
    cases s with
    | nil => cases h
    | cons d rest =>
      simp only [runStep] at h
      split at h
      · cases h
        exact (List.sublist_cons_self _ _)
      · cases h
  | ws1 =>
    cases s with
    | nil => cases h
    | cons c cs =>
      simp only [runStep] at h
      split at h
      · cases h
        exact List.dropWhile_sublist _
      · cases h
  | ws0 =>
    simp only [runStep] at h
    cases h
    exact List.dropWhile_sublist _
  | cls1 p =>
    cases s with
    | nil => cases h
    | cons c cs =>
      simp only [runStep] at h
      split at h
      · cases h
        exact List.dropWhile_sublist _
      · cases h
  | cls0 p =>
    simp only [runStep] at h
    cases h
    exact List.dropWhile_sublist _

theorem runSteps_sublist {pat : List RStep} {s r : Str} (h : runSteps pat s = some r) :
    List.Sublist r s := by
  induction pat generalizing s with
  | nil =>
    simp only [runSteps] at h
    cases h
    exact List.Sublist.refl _
  | cons st sts ih =>
    simp only [runSteps, Option.bind_eq_some] at h
    obtain ⟨mid, hmid, hrest⟩ := h
    exact (ih hrest).trans (runStep_sublist hmid)

theorem pyLStrip_sublist (l : Str) : List.Sublist (pyLStrip l) l := List.dropWhile_sublist _

theorem pyRStrip_sublist (l : Str) : List.Sublist (pyRStrip l) l := by
  unfold pyRStrip
  have h : List.Sublist (l.reverse.dropWhile pyIsSpace) l.reverse :=
    List.dropWhile_sublist _
  simpa using h.reverse

theorem pyStrip_sublist (l : Str) : List.Sublist (pyStrip l) l :=
  (pyRStrip_sublist _).trans (pyLStrip_sublist _)

theorem pyLStripSet_sublist (cs l : Str) : List.Sublist (pyLStripSet cs l) l := List.dropWhile_sublist _

theorem stripPfxOnce_sublist (s : Str) : List.Sublist (stripPfxOnce s) s := by
  unfold stripPfxOnce
  refine ((pyStrip_sublist _).trans ((pyLStripSet_sublist _ _).trans ?_))
  generalize reasonPfxPatterns = pats
  induction pats generalizing s with
  | nil => exact List.Sublist.refl _
  | cons pat pats ih =>
    simp only [List.foldl_cons]
    refine (ih _).trans ?_
    cases hrun : runSteps pat s with
    | none => exact List.Sublist.refl _
    | some r => exact (pyStrip_sublist _).trans (runSteps_sublist hrun)

/-- The fixed-point loop of `_strip_reason_prefix` (ai_utils.py:303–312),
with explicit iteration fuel.  Every non-final pass strictly shortens the
text (it only removes characters), so `length + 1` iterations always
reach the fixed point — see `stripPfxLoopF_fix`. -/
def stripPfxLoopF : ℕ → Str → Str
  | 0, cleaned => cleaned
  | fuel + 1, cleaned =>
    let updated := stripPfxOnce cleaned
    if updated = cleaned then cleaned else stripPfxLoopF fuel updated

/-- `_strip_reason_prefix` (ai_utils.py:299). -/
def stripReasonPfx (reason : Str) : Str :=
  stripPfxLoopF ((pyStrip reason).length + 1) (pyStrip reason)

/-- The `while` loop of `_strip_option_echo` (ai_utils.py:326–334), with
explicit iteration fuel.  Each pass drops the non-empty echo from the
front, strictly shortening the text, so `length + 1` iterations suffice
(`echoLoopF_props`). -/
def echoLoopF (optionClean : Str) : ℕ → Str → Str
  | 0, cleaned => cleaned
  | fuel + 1, cleaned =>
    if (pyLower optionClean).isPrefixOf (pyLower cleaned) then
      let trimmed := pyStrip (pyLStripSet " ,:.-".toList (cleaned.drop optionClean.length))
      if trimmed = [] then [] else echoLoopF optionClean fuel trimmed
    else cleaned

/-- `_strip_option_echo` (ai_utils.py:316). -/
def stripOptionEcho (reason optionText : Str) : Str :=
  let cleanedReason := pyStrip reason
  let optionClean := pyStrip optionText
  if optionClean = [] then cleanedReason
  else echoLoopF optionClean (cleanedReason.length + 1) cleanedReason

/-!  ## Proper-token extraction and capitalization normalization -/

/-- `re.findall(r"[A-Za-zÀ-ÿ']+", s)`. -/
def findTokens : Str → List Str
  | [] => []
  | c :: cs =>
    if wordClass c then (c :: cs.takeWhile wordClass) :: findTokens (cs.dropWhile wordClass)
    else findTokens cs
termination_by l => l.length
decreasing_by
  · exact Nat.lt_succ_of_le (List.dropWhile_sublist _).length_le
  · simp

/-- `_extract_proper_tokens` (ai_utils.py:359): capitalized word-class
tokens of the given texts (the Python `set` is modelled as a list, used
only through membership). -/
def extractProperTokens (texts : List Str) : List Str :=
  texts.foldl (fun acc t =>
    acc ++ (findTokens t).filter (fun tok => tok ≠ [] ∧ tok.head?.any pyIsUpperChar)) []

/-- `str.partition(":")` restricted to the found case: the text before
the first colon and the text after it. -/
def splitFirstColon (s : Str) : Option (Str × Str) :=
  if (s.takeWhile (fun c => c ≠ ':')).length < s.length then
    some (s.takeWhile (fun c => c ≠ ':'), (s.dropWhile (fun c => c ≠ ':')).drop 1)
  else none

/-- Lower-case the first character (`word[0].lower() + word[1:]`). -/
def lowerFirst : Str → Str
  | [] => []
  | c :: cs => pyLowerChar c :: cs

/-- The no-colon branch of `_normalize_reason_capital`
(ai_utils.py:399–415): skip non-alphabetic characters, then lower-case
the first letter of the leading word-class token unless it is preserved
or the pronoun `anda`. -/
def noColonBranch (text lead working : Str) (preserve : List Str) : Str :=
  let idx := (working.takeWhile (fun c => !pyIsAlpha c)).length
  if working.length ≤ idx then text
  else
    let w := (working.drop idx).takeWhile wordClass
    if w = [] then text
    else if w ∈ preserve ∨ pyLower w = "anda".toList then text
    else lead ++ working.take idx ++ lowerFirst w ++ (working.drop idx).drop w.length

/-- `_normalize_reason_capital` (ai_utils.py:372). -/
def normalizeReasonCapital (text : Str) (preserve : List Str) : Str :=
  if text = [] then text
  else
    let leadingSpaces := text.length - (pyLStrip text).length
    let lead := text.take leadingSpaces
    let working := text.drop leadingSpaces
    match splitFirstColon working with
    | some (pfx, suffix) =>
      if suffix ≠ [] then
        let rest0 := pyLStrip suffix
        let rest1 :=
          if "adalah ".toList.isPrefixOf (pyLower rest0) then rest0.drop "adalah ".length
          else rest0
        let rest2 :=
          if rest1 = [] then rest1
          else
            let w := rest1.takeWhile wordClass
            if w = [] then rest1
            else if w ∈ preserve ∨ pyLower w = "anda".toList then rest1
            else pyLower w ++ rest1.drop w.length
        let spaceAfter0 := suffix.take (suffix.length - (pyLStrip suffix).length)
        let spaceAfter := if spaceAfter0 = [] then [' '] else spaceAfter0
        if rest2 = [] then text
        else lead ++ pfx ++ [':'] ++ spaceAfter ++ rest2
      else noColonBranch text lead working preserve
    | none => noColonBranch text lead working preserve

/-!  ## Reason enrichment (`_enrich_reason`, ai_utils.py:418–455) -/

/-- Sentence-ending punctuation. -/
def sentencePunct (c : Char) : Bool := c == '.' || c == '!' || c == '?'

/-- `_enrich_reason` (ai_utils.py:418): ensure the reason ends with
sentence punctuation and append a supplementary sentence when it has
fewer than two sentences or fewer than 25 words. -/
def enrichReason (optionText reason correctText questionSummary : Str) : Str :=
  let cleaned0 := pyStrip reason
  let cleaned :=
    if cleaned0 ≠ [] ∧ ¬ (cleaned0.getLast?.any sentencePunct) then cleaned0 ++ ['.']
    else cleaned0
  let sentenceCount := cleaned.count '.' + cleaned.count '!' + cleaned.count '?'
  let wordCount := (pySplitWS cleaned).length
  let supplements : List Str :=
    if sentenceCount < 2 ∨ wordCount < 25 then
      [ if optionText ≠ [] ∧ correctText ≠ [] then
          "penjelasan ini masih menyoroti ".toList ++ optionText ++
            " tanpa mengaitkannya dengan inti soal mengenai ".toList ++ correctText ++ ".".toList
        else if correctText ≠ [] then
          "penjelasan ini belum menunjukkan keterkaitan dengan tuntutan soal tentang ".toList ++
            correctText ++ ".".toList
        else
          "penjelasan perlu menyebutkan secara spesifik mengapa pilihan ini tidak memenuhi kebutuhan soal.".toList ]
    else []
  let enriched :=
    match supplements with
    | [] => cleaned
    | _ =>
      let base :=
        if cleaned ≠ [] ∧ ¬ (cleaned.getLast?.any (· = ' ')) then cleaned ++ [' ']
        else cleaned
      base ++ List.intercalate [' '] supplements
  pyStrip enriched

/-- The full reason-normalization sequence applied to each
incorrect-option reason by `generate_ai_explanations`
(ai_utils.py:1055–1057): prefix stripping, option-echo stripping,
enrichment. -/
def normalizeReasonSeq (optionText reason correctText questionSummary : Str) : Str :=
  enrichReason optionText (stripOptionEcho (stripReasonPfx reason) optionText)
    correctText questionSummary

/-!  ## JSON values, `json.loads`, and `_repair_json_text`

`json.loads` is modelled by a recursive-descent parser over `Str` that is
strict about unescaped control characters inside strings (as Python's
default `strict=True` decoder is — this strictness is what the repair
pass exists to work around).  Numeric literals are modelled as integers;
no claim involves fractional number parsing. -/

/-- A parsed JSON value.  Objects keep their fields in written order;
lookup takes the last occurrence of a repeated name, as a Python `dict`
built by the decoder would. -/
inductive Json where
  | null
  | bool (b : Bool)
  | num (n : ℤ)
  | str (s : Str)
  | arr (xs : List Json)
  | obj (kvs : List (Str × Json))

/-- JSON whitespace as skipped by the decoder. -/
def jsonWS (c : Char) : Bool := c == ' ' || c == '\t' || c == '\n' || c == '\r'

/-- Skip JSON whitespace. -/
def skipJWS (s : Str) : Str := s.dropWhile jsonWS

/-- The value of one hex digit. -/
def hexVal (c : Char) : Option ℕ :=
  if '0' ≤ c ∧ c ≤ '9' then some (c.toNat - 48)
  else if 'a' ≤ c ∧ c ≤ 'f' then some (c.toNat - 87)
  else if 'A' ≤ c ∧ c ≤ 'F' then some (c.toNat - 55)
  else none

/-- Decode a one-character escape. -/
def escChar (c : Char) : Option Char :=
  if c = '"' then some '"'
  else if c = '\\' then some '\\'
  else if c = '/' then some '/'
  else if c = 'b' then some (Char.ofNat 8)
  else if c = 'f' then some (Char.ofNat 12)
  else if c = 'n' then some '\n'
  else if c = 'r' then some '\r'
  else if c = 't' then some '\t'
  else none

/-- Parse a JSON string body (the part after the opening quote), strict
about control characters: returns the decoded content and the rest after
the closing quote. -/
def parseStrBody : Str → Option (Str × Str)
  | [] => none
  | c :: cs =>
    if c = '"' then some ([], cs)
    else if c = '\\' then
      match cs with
      | [] => none
      | e :: cs2 =>
        if e = 'u' then
          match cs2 with
          | h1 :: h2 :: h3 :: h4 :: cs3 =>
            match hexVal h1, hexVal h2, hexVal h3, hexVal h4 with
            | some a, some b, some cc, some d =>
              (parseStrBody cs3).map (fun p => (Char.ofNat (((a * 16 + b) * 16 + cc) * 16 + d) :: p.1, p.2))
            | _, _, _, _ => none
          | _ => none
        else
          match escChar e with
          | some ec => (parseStrBody cs2).map (fun p => (ec :: p.1, p.2))
          | none => none
    else if c.toNat < 32 then none
    else (parseStrBody cs).map (fun p => (c :: p.1, p.2))
termination_by l => l.length
decreasing_by all_goals simp_arith [List.length_cons]

/-- The numeric value of a digit run. -/
def digitsToNat (ds : Str) : ℕ := ds.foldl (fun a c => a * 10 + (c.toNat - 48)) 0

mutual

/-- The decoder's value parser, with fuel (the fuel only bounds nesting;
`jsonLoads` supplies enough for any input). -/
def parseVal : ℕ → Str → Option (Json × Str)
  | 0, _ => none
  | Nat.succ fuel, s =>
    match skipJWS s with
    | [] => none
    | c :: cs =>
      if c = '"' then (parseStrBody cs).map (fun p => (Json.str p.1, p.2))
      else if c = lbrace then
        match skipJWS cs with
        | d :: ds => if d = rbrace then some (Json.obj [], ds)
                     else (parseMembers fuel (skipJWS cs)).map (fun p => (Json.obj p.1, p.2))
        | [] => none
      else if c = '[' then
        match skipJWS cs with
        | d :: _ => if d = ']' then some (Json.arr [], (skipJWS cs).drop 1)
                    else (parseItems fuel (skipJWS cs)).map (fun p => (Json.arr p.1, p.2))
        | [] => none
      else if c = 't' then
        if "rue".toList.isPrefixOf cs then some (Json.bool true, cs.drop 3) else none
      else if c = 'f' then
        if "alse".toList.isPrefixOf cs then some (Json.bool false, cs.drop 4) else none
      else if c = 'n' then
        if "ull".toList.isPrefixOf cs then some (Json.null, cs.drop 3) else none
      else if c = '-' then
        match cs.takeWhile pyIsDigit with
        | [] => none
        | ds => some (Json.num (-(digitsToNat ds : ℤ)), cs.dropWhile pyIsDigit)
      else if pyIsDigit c then
        some (Json.num (digitsToNat ((c :: cs).takeWhile pyIsDigit)),
          (c :: cs).dropWhile pyIsDigit)
      else none

/-- Parse one or more comma-separated object members up to the closing
brace. -/
def parseMembers : ℕ → Str → Option (List (Str × Json) × Str)
  | 0, _ => none
  | Nat.succ fuel, s =>
    match skipJWS s with
    | c :: cs =>
      if c = '"' then
        match parseStrBody cs with
        | some (k, r1) =>
          match skipJWS r1 with
          | d :: r2 =>
            if d = ':' then
              match parseVal fuel r2 with
              | some (v, r3) =>
                match skipJWS r3 with
                | e :: r4 =>
                  if e = ',' then (parseMembers fuel r4).map (fun p => ((k, v) :: p.1, p.2))
                  else if e = rbrace then some ([(k, v)], r4)
                  else none
                | [] => none
              | none => none
            else none
          | [] => none
        | none => none
      else none
    | [] => none

/-- Parse one or more comma-separated array items up to the closing
bracket. -/
def parseItems : ℕ → Str → Option (List Json × Str)
  | 0, _ => none
  | Nat.succ fuel, s =>
    match parseVal fuel s with
    | some (v, r1) =>
      match skipJWS r1 with
      | c :: r2 =>
        if c = ',' then (parseItems fuel r2).map (fun p => (v :: p.1, p.2))
        else if c = ']' then some ([v], r2)
        else none
      | [] => none
    | none => none

end

/-- Models `json.loads`: parse one value, allow trailing whitespace,
refuse anything else. -/
def jsonLoads (s : Str) : Option Json :=
  match parseVal (s.length + 1) s with
  | some (v, rest) => if skipJWS rest = [] then some v else none
  | none => none

/-!  ### Serialisers used to state the parser claims

These are specification-side definitions (not from the source): `render`
emits a strictly well-formed reply, and `renderLenient` emits the same
reply except that newline characters inside string values are left as
literal newlines — exactly the input family C6 quantifies over. -/

/-- One canonical decimal digit. -/
def digitChar (n : ℕ) : Char := Char.ofNat (48 + n)

/-- Canonical decimal rendering of a natural number. -/
def renderNatGo (n : ℕ) (acc : Str) : Str :=
  if h : n < 10 then digitChar n :: acc
  else renderNatGo (n / 10) (digitChar (n % 10) :: acc)
termination_by n
decreasing_by exact Nat.div_lt_self (by omega) (by omega)

/-- Canonical decimal rendering of a natural number. -/
def renderNat (n : ℕ) : Str := renderNatGo n []

/-- Canonical decimal rendering of an integer. -/
def renderInt (n : ℤ) : Str :=
  if n < 0 then '-' :: renderNat n.natAbs else renderNat n.toNat

/-- One hex digit character (lower case). -/
def hexDigitChar (n : ℕ) : Char :=
  if n < 10 then Char.ofNat (48 + n) else Char.ofNat (87 + n)

/-- Strict rendering of one string character: quote, backslash and
control characters are escaped. -/
def renderChar (c : Char) : Str :=
  if c = '"' then ['\\', '"']
  else if c = '\\' then ['\\', '\\']
  else if c = '\n' then ['\\', 'n']
  else if c = '\r' then ['\\', 'r']
  else if c = '\t' then ['\\', 't']
  else if c.toNat < 32 then
    ['\\', 'u', '0', '0', hexDigitChar (c.toNat / 16), hexDigitChar (c.toNat % 16)]
  else [c]

/-- Lenient rendering of one string character: as `renderChar`, but a
newline is left as a literal (unescaped) newline. -/
def renderLenientChar (c : Char) : Str :=
  if c = '\n' then ['\n'] else renderChar c

/-- Rendering of a string body with the given character renderer. -/
def renderBodyWith (esc : Char → Str) (s : Str) : Str :=
  s.foldr (fun c acc => esc c ++ acc) []

mutual

/-- Rendering of a JSON value with the given character renderer. -/
def renderWith (esc : Char → Str) : Json → Str
  | .null => "null".toList
  | .bool true => "true".toList
  | .bool false => "false".toList
  | .num n => renderInt n
  | .str s => '"' :: (renderBodyWith esc s ++ ['"'])
  | .arr [] => "[]".toList
  | .arr (x :: xs) => '[' :: (renderWith esc x ++ renderItemsRest esc xs ++ [']'])
  | .obj [] => [lbrace, rbrace]
  | .obj (kv :: kvs) =>
    lbrace :: (renderMember esc kv ++ renderMembersRest esc kvs ++ [rbrace])

/-- Remaining array items, each preceded by a comma. -/
def renderItemsRest (esc : Char → Str) : List Json → Str
  | [] => []
  | x :: xs => ',' :: (renderWith esc x ++ renderItemsRest esc xs)

/-- One object member. -/
def renderMember (esc : Char → Str) : Str × Json → Str
  | (k, v) => '"' :: (renderBodyWith esc k ++ ['"'] ++ [':'] ++ renderWith esc v)

/-- Remaining object members, each preceded by a comma. -/
def renderMembersRest (esc : Char → Str) : List (Str × Json) → Str
  | [] => []
  | kv :: kvs => ',' :: (renderMember esc kv ++ renderMembersRest esc kvs)

end

/-- Strictly well-formed rendering of a value. -/
def render (v : Json) : Str := renderWith renderChar v

/-- The same rendering but with literal newlines inside string values:
the C6 input family ("well-formed except for unescaped literal newlines
inside quoted string values"). -/
def renderLenient (v : Json) : Str := renderWith renderLenientChar v

/-- A character a reply string value may carry in the C6 statement:
printable, or one of tab/newline/carriage return. -/
def okChar (c : Char) : Bool := 32 ≤ c.toNat || c == '\n' || c == '\r' || c == '\t'

mutual

/-- All string values (and keys) of the value are made of `okChar`s. -/
def jsonOk : Json → Bool
  | .null => true
  | .bool _ => true
  | .num _ => true
  | .str s => s.all okChar
  | .arr xs => jsonOkList xs
  | .obj kvs => jsonOkMembers kvs

/-- `jsonOk` on a list of values. -/
def jsonOkList : List Json → Bool
  | [] => true
  | x :: xs => jsonOk x && jsonOkList xs

/-- `jsonOk` on object members. -/
def jsonOkMembers : List (Str × Json) → Bool
  | [] => true
  | (k, v) :: kvs => k.all okChar && jsonOk v && jsonOkMembers kvs

end

/-!  ### `_repair_json_text` (ai_utils.py:191–236) -/

/-- `_is_escaped` (ai_utils.py:191): whether the character at `idx` is
preceded by an odd number of backslashes. -/
def isEscaped (raw : Str) (idx : ℕ) : Bool :=
  ((raw.take idx).reverse.takeWhile (fun c => c = '\\')).length % 2 = 1

/-- The backslash-run parity invariant used to reason about the repair
scan: the already-scanned prefix ends in an even number of backslashes. -/
def evenRun (pre : Str) : Bool :=
  (pre.reverse.takeWhile (fun c => c = '\\')).length % 2 = 0

/-- The scanning loop of `_repair_json_text` from position `idx`. -/
def repairGo (raw : Str) (idx : ℕ) (inString : Bool) : Str :=
  if h : raw.length ≤ idx then []
  else
    let char := raw.getD idx ' '
    if char = '"' ∧ ¬ isEscaped raw idx then
      char :: repairGo raw (idx + 1) (!inString)
    else if inString then
      if char = '\n' then '\\' :: 'n' :: repairGo raw (idx + 1) inString
      else if char = '\r' then '\\' :: 'r' :: repairGo raw (idx + 1) inString
      else if char = '\\' then
        if h2 : idx + 1 < raw.length then
          let nxt := raw.getD (idx + 1) ' '
          if nxt ∈ "\"\\/bfnrtu".toList then char :: nxt :: repairGo raw (idx + 2) inString
          else '\\' :: '\\' :: repairGo raw (idx + 1) inString
        else '\\' :: '\\' :: repairGo raw (idx + 1) inString
      else char :: repairGo raw (idx + 1) inString
    else char :: repairGo raw (idx + 1) inString
termination_by raw.length - idx
decreasing_by all_goals omega

/-- `_repair_json_text` (ai_utils.py:200): escape invalid backslashes and
bare newlines within strings. -/
def repairJsonText (raw : Str) : Str := repairGo raw 0 false

/-!  ### `_parse_response` (ai_utils.py:264–286) -/

/-- The index of the last occurrence of `c` (Python `str.rfind`). -/
def lastIdxOf (raw : Str) (c : Char) : Option ℕ :=
  match raw.reverse.findIdx? (fun d => d = c) with
  | some k => some (raw.length - 1 - k)
  | none => none

/-- The substring between the first `{` and the last `}`, when both
exist in that order (ai_utils.py:273–276). -/
def firstBraceCandidate (raw : Str) : Option Str :=
  match raw.findIdx? (fun c => c = lbrace), lastIdxOf raw rbrace with
  | some st, some en => if st < en then some ((raw.take (en + 1)).drop st) else none
  | _, _ => none

/-- `_parse_response` (ai_utils.py:264): direct parse, then repair, then
both again on the brace-delimited candidate substring; `none` is the
typed unparseable failure. -/
def parseResponse (raw : Str) : Option Json :=
  match jsonLoads raw with
  | some p => some p
  | none =>
    match jsonLoads (repairJsonText raw) with
    | some p => some p
    | none =>
      match firstBraceCandidate raw with
      | some cand =>
        match jsonLoads cand with
        | some p => some p
        | none => jsonLoads (repairJsonText cand)
      | none => none

/-- The four parse attempts of `_parse_response`, in order, as separate
definitions (used to state C5). -/
def parseAttempt1 (raw : Str) : Option Json := jsonLoads raw

/-- Second attempt: repair then parse. -/
def parseAttempt2 (raw : Str) : Option Json := jsonLoads (repairJsonText raw)

/-- Third attempt: parse the brace-delimited candidate. -/
def parseAttempt3 (raw : Str) : Option Json := (firstBraceCandidate raw).bind jsonLoads

/-- Fourth attempt: repair the candidate then parse. -/
def parseAttempt4 (raw : Str) : Option Json :=
  (firstBraceCandidate raw).bind (fun c => jsonLoads (repairJsonText c))

/-- First success in a list of attempts. -/
def firstSome : List (Option Json) → Option Json
  | [] => none
  | none :: rest => firstSome rest
  | some x :: _ => some x

/-!  ## The per-row step of `generate_ai_explanations` (ai_utils.py:818–1076)

The external model call is abstracted as the reply strings handed to
`processRow`: `reply` is the first reply, `retryReply` the reply to the
single numeric re-prompt.  The returned number counts how many model
calls the row consumed. -/

mutual

/-- `repr` of a decoded JSON value, as Python would print it
(modelled roughly; no claim exercises container printing). -/
def pyReprJson : Json → Str
  | .null => "None".toList
  | .bool true => "True".toList
  | .bool false => "False".toList
  | .num n => renderInt n
  | .str s => apos :: (s ++ [apos])
  | .arr xs => '[' :: (pyReprItems xs ++ [']'])
  | .obj kvs => lbrace :: (pyReprMembers kvs ++ [rbrace])

/-- `repr` of a list of values. -/
def pyReprItems : List Json → Str
  | [] => []
  | [x] => pyReprJson x
  | x :: xs => pyReprJson x ++ ", ".toList ++ pyReprItems xs

/-- `repr` of dict members. -/
def pyReprMembers : List (Str × Json) → Str
  | [] => []
  | [(k, v)] => (apos :: (k ++ [apos])) ++ ": ".toList ++ pyReprJson v
  | (k, v) :: kvs =>
    (apos :: (k ++ [apos])) ++ ": ".toList ++ pyReprJson v ++ ", ".toList ++ pyReprMembers kvs

end

/-- Python `str()` of a decoded JSON value. -/
def pyStrJson : Json → Str
  | .str s => s
  | j => pyReprJson j

/-- `dict.get(k)` on a decoded object: the last binding of `k` wins, as
in a `dict` built by the decoder. -/
def objGet (kvs : List (Str × Json)) (k : Str) : Option Json :=
  (kvs.reverse.find? (fun p => p.1 = k)).map Prod.snd

/-- `incorrect_reasons.get(key, "")` (ai_utils.py:1053): raises
(`TypeError`/`AttributeError`, modelled as `.error`) unless the value is
a dict. -/
def dictGetDefault (j : Json) (k : Str) : Except Unit Json :=
  match j with
  | .obj kvs => .ok ((objGet kvs k).getD (Json.str []))
  | _ => .error ()

/-- Python truthiness of a decoded JSON value. -/
def jsonTruthy : Json → Bool
  | .null => false
  | .bool b => b
  | .num n => n ≠ 0
  | .str s => !s.isEmpty
  | .arr xs => !xs.isEmpty
  | .obj kvs => !kvs.isEmpty

/-- `data.get("incorrect_reasons") or {}` (ai_utils.py:921). -/
def reasonsOrEmpty (v : Option Json) : Json :=
  match v with
  | none => Json.obj []
  | some j => if jsonTruthy j then j else Json.obj []

/-- `_normalize_detail_paragraphs` (ai_utils.py:254): a string becomes a
one-element list, `None` an empty one, a list is taken itemwise (an
object contributes its keys, as `list(dict)` would); `list()` of a
number or boolean raises. -/
def normalizeDetailParagraphs (v : Option Json) : Except Unit (List Str) :=
  match v with
  | none => .ok []
  | some Json.null => .ok []
  | some (Json.str s) => .ok (if pyStrip s = [] then [] else [pyStrip s])
  | some (Json.arr xs) => .ok ((xs.map (fun j => pyStrip (pyStrJson j))).filter (fun t => t ≠ []))
  | some (Json.obj kvs) => .ok ((kvs.map (fun p => pyStrip p.1)).filter (fun t => t ≠ []))
  | some (Json.num _) => .error ()
  | some (Json.bool _) => .error ()

/-- The loop of `_dedupe_paragraphs` (ai_utils.py:239–251). -/
def dedupeParagraphsGo (seen : List Str) : List Str → List Str
  | [] => []
  | p :: ps =>
    let text := pyStrip p
    if text = [] then dedupeParagraphsGo seen ps
    else
      let normalized := pyStrip (collapseWS text)
      if normalized ∈ seen then dedupeParagraphsGo seen ps
      else text :: dedupeParagraphsGo (normalized :: seen) ps

/-- `_dedupe_paragraphs` (ai_utils.py:239): drop blank paragraphs and
paragraphs equal to an earlier one after whitespace normalization. -/
def dedupeParagraphs (ps : List Str) : List Str := dedupeParagraphsGo [] ps

/-- `str.replace("```,", "```")` (ai_utils.py:867). -/
def stripBacktickComma : Str → Str
  | [] => []
  | c :: cs =>
    if "```,".toList.isPrefixOf (c :: cs) then
      '`' :: '`' :: '`' :: stripBacktickComma (cs.drop 3)
    else c :: stripBacktickComma cs
termination_by l => l.length
decreasing_by
  · have := List.length_drop 3 cs
    simp only [List.length_cons]
    omega
  · simp

/-- The code-fence stripping applied to each model reply
(ai_utils.py:866–872 and 906–912). -/
def stripFences (reply : Str) : Str :=
  let raw1 := stripBacktickComma (pyStrip reply)
  if "```".toList.isPrefixOf raw1 then
    let raw2 := pyStrip raw1
    let raw3 := if "```json".toList.isPrefixOf raw2 then raw2.drop 7 else raw2
    pyStrip (pyStripSet "`".toList raw3)
  else raw1

/-- Python float repr, modelled for decimal-representable rationals
(scores are spreadsheet numbers; no claim depends on this rendering). -/
def floatRepr (q : ℚ) : Str :=
  if q.den = 1 then renderInt q.num ++ ".0".toList
  else
    match (List.range 18).find? (fun k => (q * ((10 : ℚ) ^ k)).den = 1) with
    | some k =>
      let scaled := (q * ((10 : ℚ) ^ k)).num
      let sign : Str := if scaled < 0 then ['-'] else []
      let ds0 := renderNat scaled.natAbs
      let ds := if ds0.length ≤ k then (List.replicate (k + 1 - ds0.length) '0') ++ ds0 else ds0
      sign ++ ds.take (ds.length - k) ++ ['.'] ++ ds.drop (ds.length - k)
    | none => renderInt q.num ++ "/".toList ++ renderNat q.den

/-- `str.rstrip(c)` for a single character. -/
def rstripChars (c : Char) (s : Str) : Str := (s.reverse.dropWhile (fun d => d = c)).reverse

/-- `_format_score` (ai_utils.py:100): format without trailing zeros. -/
def formatScore (score : Option ℚ) : Option Str :=
  match score with
  | none => none
  | some q =>
    let t := rstripChars '.' (rstripChars '0' (floatRepr q))
    some (if t = [] then "0".toList else t)

/-- `_label_with_score` (ai_utils.py:134). -/
def labelWithScore (optionText : Str) (score : Option ℚ) (includeScore : Bool) : Str :=
  let label := pyStrip optionText
  if includeScore then
    match formatScore score with
    | some st => label ++ " (".toList ++ st ++ [')']
    | none => label
  else label

/-- `_ensure_trailing_period` (ai_utils.py:143). -/
def ensureTrailingPeriod (text : Str) : Str :=
  if text = [] then text
  else if text.getLast?.any sentencePunct then text
  else text ++ ['.']

/-- `_format_paragraph` (ai_utils.py:185). -/
def formatParagraph (text : Str) (styled : Bool) : Str :=
  if styled then "<p style=\"text-align:justify\">".toList ++ text ++ "</p>".toList
  else "<p>".toList ++ text ++ "</p>".toList

/-- The non-greedy close search of `_wrap_math_tex`: the least `k ≥ 1`
with `\` and the closing delimiter at `k`, `k+1`, and no newline before
it (`.+?` cannot cross a newline). -/
def findMathClose (cl : Char) (s : Str) : Option ℕ :=
  ((List.range s.length).filter (fun k =>
    1 ≤ k ∧ s.getD k ' ' = '\\' ∧ s.getD (k + 1) ' ' = cl ∧
      (s.take k).all (fun c => c ≠ '\n'))).head?

/-- One `re.sub` pass of `_wrap_math_tex` for delimiters
`\op … \cl`. -/
def wrapMathScan (opn cl : Char) : Str → Str
  | [] => []
  | c :: cs =>
    if c = '\\' ∧ cs.head? = some opn then
      match findMathClose cl cs.tail with
      | some k =>
        "<span class=\"math-tex\">".toList ++ ('\\' :: opn :: cs.tail.take k) ++ ['\\', cl] ++
          "</span>".toList ++ wrapMathScan opn cl (cs.tail.drop (k + 2))
      | none => c :: wrapMathScan opn cl cs
    else c :: wrapMathScan opn cl cs
termination_by l => l.length
decreasing_by
  · have h1 : (cs.tail.drop (k + 2)).length ≤ cs.tail.length := by
      have := List.length_drop (k + 2) cs.tail
      omega
    have h2 : cs.tail.length ≤ cs.length := by
      cases cs <;> simp
    simp only [List.length_cons]
    omega
  · simp
  · simp

/-- `_wrap_math_tex` (ai_utils.py:151). -/
def wrapMathTex (text : Str) : Str :=
  if text = [] then text
  else wrapMathScan '[' ']' (wrapMathScan '(' ')' text)

/-- `re.sub(r"^\s*<p[^>]*>", "", s)` (case-insensitive). -/
def stripLeadPTag (s : Str) : Str :=
  let w := s.dropWhile pyIsSpace
  if "<p".toList.isPrefixOf (pyLower w) then
    let after := w.drop 2
    let inner := after.takeWhile (fun c => c ≠ '>')
    if (after.drop inner.length).head? = some '>' then after.drop (inner.length + 1) else s
  else s

/-- `re.sub(r"</p>\s*$", "", s)` (case-insensitive). -/
def stripTrailCloseP (s : Str) : Str :=
  let r := pyRStrip s
  if "</p>".toList.isSuffixOf (pyLower r) then r.take (r.length - 4) else s

/-- `re.sub(r"</?span[^>]*>", "", s)` (case-insensitive). -/
def removeSpanTags : Str → Str
  | [] => []
  | c :: cs =>
    if c = '<' then
      let body := if cs.head? = some '/' then cs.drop 1 else cs
      if "span".toList.isPrefixOf (pyLower body) then
        let after := body.drop 4
        let inner := after.takeWhile (fun d => d ≠ '>')
        if (after.drop inner.length).head? = some '>' then
          removeSpanTags (after.drop (inner.length + 1))
        else c :: removeSpanTags cs
      else c :: removeSpanTags cs
    else c :: removeSpanTags cs
termination_by l => l.length
decreasing_by
  all_goals simp only [List.length_cons]
  · have h2 : after.length ≤ cs.length := by
      show ((if cs.head? = some '/' then cs.drop 1 else cs).drop 4).length ≤ cs.length
      have ha := List.length_drop 4 (if cs.head? = some '/' then cs.drop 1 else cs)
      have hb : (if cs.head? = some '/' then cs.drop 1 else cs).length ≤ cs.length := by
        split
        · have := List.length_drop 1 cs
          omega
        · exact Nat.le_refl _
      omega
    have h1 : (after.drop (inner.length + 1)).length ≤ after.length := by
      have := List.length_drop (inner.length + 1) after
      omega
    show (after.drop (inner.length + 1)).length < cs.length + 1
    omega
  all_goals simp

/-- `re.sub(r"<br\s*/?>", "\n", s)` (case-insensitive). -/
def brToNewline : Str → Str
  | [] => []
  | c :: cs =>
    if c = '<' ∧ "br".toList.isPrefixOf (pyLower cs) then
      let after := (cs.drop 2).dropWhile pyIsSpace
      let after2 := if after.head? = some '/' then after.drop 1 else after
      if after2.head? = some '>' then '\n' :: brToNewline (after2.drop 1)
      else c :: brToNewline cs
    else c :: brToNewline cs
termination_by l => l.length
decreasing_by
  all_goals simp only [List.length_cons]
  · have h0 : after.length ≤ (cs.drop 2).length := (List.dropWhile_sublist _).length_le
    have h1 : after2.length ≤ after.length := by
      show (if after.head? = some '/' then after.drop 1 else after).length ≤ after.length
      split
      · have := List.length_drop 1 after
        omega
      · exact Nat.le_refl _
    have h2 : (after2.drop 1).length ≤ after2.length := by
      have := List.length_drop 1 after2
      omega
    have h3 := List.length_drop 2 cs
    show (after2.drop 1).length < cs.length + 1
    omega
  all_goals simp

/-- Python `str.splitlines` on `\n`, `\r` and `\r\n`. -/
def splitLines : Str → List Str
  | [] => []
  | c :: cs =>
    let line := (c :: cs).takeWhile (fun d => d ≠ '\n' ∧ d ≠ '\r')
    let rest := (c :: cs).drop line.length
    if rest.isEmpty then [line]
    else if "\r\n".toList.isPrefixOf rest then line :: splitLines (rest.drop 2)
    else line :: splitLines (rest.drop 1)
termination_by l => l.length
decreasing_by
  all_goals
    simp only [List.length_cons]
    first
      | show (rest.drop 2).length < cs.length + 1
      | show (rest.drop 1).length < cs.length + 1
    have h1 : rest.length ≤ cs.length + 1 := by
      show ((c :: cs).drop line.length).length ≤ cs.length + 1
      have := List.length_drop line.length (c :: cs)
      simp only [List.length_cons] at this
      omega
    first
      | (have h2 := List.length_drop 2 rest
         omega)
      | (have h2 := List.length_drop 1 rest
         omega)

/-- `_split_numeric_paragraphs` (ai_utils.py:169). -/
def splitNumericParagraphs (text : Str) : List Str :=
  let c1 := pyStrip text
  let c2 := stripLeadPTag c1
  let c3 := stripTrailCloseP c2
  let c4 := removeSpanTags c3
  let c5 := brToNewline c4
  ((splitLines c5).map pyStrip).filter (fun p => p ≠ [])

/-- `re.sub(r"^jawaban yang tepat[\s:,-]*", "", s, re.IGNORECASE)`
(ai_utils.py:949–951). -/
def stripJawabanTepat (s : Str) : Str :=
  if "jawaban yang tepat".toList.isPrefixOf (pyLower s) then
    (s.drop 18).dropWhile (fun c => pyIsSpace c || c == ':' || c == ',' || c == '-')
  else s

/-- The skip test of the detail-paragraph loop (ai_utils.py:1004–1013). -/
def detailSkipPrefixes (lowered : Str) : Bool :=
  "jawaban yang tepat".toList.isPrefixOf lowered ||
  "jawaban yang kurang tepat".toList.isPrefixOf lowered ||
  "- opsi".toList.isPrefixOf lowered ||
  "opsi".toList.isPrefixOf lowered ||
  "- pilihan".toList.isPrefixOf lowered ||
  "- ".toList.isPrefixOf lowered

/-- The detail-paragraph loop (ai_utils.py:992–1022): returns the
emitted fragments and `explanation_paragraphs_added`. -/
def detailFragments (analitis numerik : Bool) (paragraphs : List Str) : List Str × ℕ :=
  paragraphs.foldl (fun acc paragraph =>
    let raw := pyStrip paragraph
    if raw = [] then acc
    else if analitis ∧ pyContains (pyLower raw) "<table".toList then
      (acc.1 ++ [raw], acc.2 + 1)
    else
      let plain := sanitizeText raw
      if plain = [] then acc
      else if detailSkipPrefixes (pyLower plain) then acc
      else if numerik then
        let parts := splitNumericParagraphs raw
        (acc.1 ++ parts.map (fun part => formatParagraph (wrapMathTex part) true),
          acc.2 + parts.length)
      else (acc.1 ++ [formatParagraph plain true], acc.2 + 1)) ([], 0)

/-- The incorrect-option loop (ai_utils.py:1045–1065); `.error` models
the exception raised when `incorrect_reasons` is not a dict. -/
def incorrectFragments (reasonsJson : Json) (optionMap : List Str)
    (optionScores : List (Option ℚ)) (includeScores : Bool)
    (mainOption questionSummary : Str) : List ℕ → Except Unit (List Str)
  | [] => .ok []
  | idx :: rest =>
    if optionMap.length ≤ idx then
      incorrectFragments reasonsJson optionMap optionScores includeScores mainOption
        questionSummary rest
    else
      let optionText := optionMap.getD idx []
      if optionText = [] then
        incorrectFragments reasonsJson optionMap optionScores includeScores mainOption
          questionSummary rest
      else if mainOption ≠ [] ∧ pyLower (pyStrip optionText) = pyLower (pyStrip mainOption) then
        incorrectFragments reasonsJson optionMap optionScores includeScores mainOption
          questionSummary rest
      else
        match dictGetDefault reasonsJson (renderNat (idx + 1)) with
        | .error e => .error e
        | .ok rv =>
          let r1 := sanitizeText (pyStrip (pyStrJson rv))
          let r2 := stripReasonPfx r1
          let r3 := stripOptionEcho r2 optionText
          let r4 := enrichReason optionText r3 mainOption questionSummary
          let r5 :=
            if r4 ≠ [] then
              normalizeReasonCapital r4 (extractProperTokens [optionText, mainOption])
            else r4
          let oscore := if idx < optionScores.length then optionScores.getD idx none else none
          let olabel := labelWithScore optionText oscore includeScores
          (incorrectFragments reasonsJson optionMap optionScores includeScores mainOption
            questionSummary rest).map
            (fun fs =>
              formatParagraph ("- <strong>".toList ++ olabel ++ ":</strong> ".toList ++ r5)
                true :: fs)

/-- `str.upper` on the first character (`es[0].upper() + es[1:]`,
ai_utils.py:987). -/
def upperFirst : Str → Str
  | [] => []
  | c :: cs => pyUpperChar c :: cs

/-- The outcome of processing one row. -/
inductive RowOutcome where
  /-- The category classifier excluded the row (ai_utils.py:822–826). -/
  | skippedExcluded (reason : Str)
  /-- No correct option could be inferred (ai_utils.py:849–854). -/
  | skippedNoCorrect
  /-- All parse attempts failed (ai_utils.py:874–883). -/
  | skippedUnparseable (raw : Str)
  /-- The per-row exception handler fired (ai_utils.py:1071–1073). -/
  | rowFailed
  /-- A result document was written (ai_utils.py:1067–1069). -/
  | document (html : Str)

/-- The document assembly (ai_utils.py:917–1069), starting from the
parsed object's members. -/
def finishRow (row : Row) (dataKvs : List (Str × Json)) : RowOutcome :=
  let optionMap := buildOptionMap row
  let correctIndices := orderedCorrectIndices row
  let incorrectIndices := orderedIncorrectIndices row
  let optionScores := extractOptionScores row
  let includeScores := normalizeLabelCell row.category = "tkp".toList
  let numerik := isTiuNumerik row.category row.subCategory
  let analitis := isVerbalAnalitis row.category row.subCategory
  let questionSummary := sanitizeText (pyStrip (cellStr row.question))
  let correctSummary0 := pyStrip (pyStrJson ((objGet dataKvs "correct_summary".toList).getD (Json.str [])))
  match normalizeDetailParagraphs (objGet dataKvs "detail_paragraphs".toList) with
  | .error _ => .rowFailed
  | .ok detail0 =>
    let reasonsJson := reasonsOrEmpty (objGet dataKvs "incorrect_reasons".toList)
    let detail1 := if numerik then dedupeParagraphs detail0 else detail0
    let correctSummary :=
      if correctSummary0 = [] ∧ correctIndices ≠ [] then
        match correctIndices with
        | idx :: _ => if idx < optionMap.length then optionMap.getD idx [] else correctSummary0
        | [] => correctSummary0
      else correctSummary0
    let mainPair : Str × Option ℚ :=
      match correctIndices with
      | idx :: _ =>
        if idx < optionMap.length then
          (pyStrip (optionMap.getD idx []),
            if idx < optionScores.length then optionScores.getD idx none else none)
        else ([], none)
      | [] => ([], none)
    let step : List Str × List Str × Str :=
      if correctSummary ≠ [] ∨ mainPair.1 ≠ [] then
        let correctText := pyStrip (stripJawabanTepat (sanitizeText correctSummary))
        let mainOption :=
          if mainPair.1 = [] ∧ correctText ≠ [] then
            match optionMap.find? (fun t => t ≠ [] ∧ pyLower t = pyLower correctText) with
            | some t => t
            | none => mainPair.1
          else mainPair.1
        let pe : Str × Str :=
          if mainOption ≠ [] then (mainOption, stripOptionEcho correctText mainOption)
          else (correctText, [])
        let primaryText := pyStrip pe.1
        let explanationCore0 := pyStrip pe.2
        let explanationCore :=
          if explanationCore0 ≠ [] ∧ pyLower explanationCore0 = pyLower primaryText then []
          else explanationCore0
        let parts0 : List Str :=
          if primaryText ≠ [] then
            let primaryLabel := labelWithScore primaryText mainPair.2 includeScores
            let correctLine0 := "Jawaban yang tepat: ".toList ++ primaryLabel
            let correctLine1 := if !numerik then ensureTrailingPeriod correctLine0 else correctLine0
            let correctLine := if numerik then wrapMathTex correctLine1 else correctLine1
            [formatParagraph ("<strong>".toList ++ correctLine ++ "</strong>".toList) true]
          else []
        let detail2 :=
          if explanationCore ≠ [] ∧ detail1 = [] then
            let es := pyStrip explanationCore
            if es ≠ [] then
              let es2 := upperFirst es
              [if ¬ (es2.getLast?.any sentencePunct) then es2 ++ ['.'] else es2]
            else detail1
          else detail1
        (parts0, detail2, mainOption)
      else ([], detail1, mainPair.1)
    let df := detailFragments analitis numerik step.2.1
    let parts1 := step.1 ++ df.1
    let parts2 :=
      if step.2.2 ≠ [] ∧ df.2 = 0 ∧ !numerik ∧ !analitis then
        parts1 ++ [formatParagraph (step.2.2 ++
          " mencerminkan penghormatan terhadap seni dan budaya lokal. Jelaskan bagaimana unsur-unsur budaya dalam opsi tersebut muncul pada konteks soal.".toList) true]
      else parts1
    let parts3 :=
      if analitis then
        let tableHtml := pyStrip (pyStrJson ((objGet dataKvs "table_html".toList).getD (Json.str [])))
        if tableHtml ≠ [] ∧ pyContains (pyLower tableHtml) "<table".toList then
          parts2 ++ [tableHtml]
        else parts2
      else parts2
    if incorrectIndices ≠ [] ∧ (!numerik) then
      match incorrectFragments reasonsJson optionMap optionScores includeScores step.2.2
          questionSummary incorrectIndices with
      | .error _ => .rowFailed
      | .ok frags =>
        .document (List.intercalate ['\n']
          (parts3 ++ [formatParagraph "<strong>Jawaban yang kurang tepat:</strong>".toList true]
            ++ frags))
    else .document (List.intercalate ['\n'] parts3)

/-- One iteration of the row loop of `generate_ai_explanations`
(ai_utils.py:818–1069): the skip checks, the model call (abstracted as
`reply`), parsing, the single numeric re-prompt (whose reply is
`retryReply`), and assembly.  The second component counts the model
calls made for the row. -/
def processRow (row : Row) (reply retryReply : Str) : RowOutcome × ℕ :=
  match shouldSkipRow row.category row.subCategory with
  | some reason => (.skippedExcluded reason, 0)
  | none =>
    if orderedCorrectIndices row = [] then (.skippedNoCorrect, 0)
    else
      let rawText := stripFences reply
      match parseResponse rawText with
      | none => (.skippedUnparseable rawText, 1)
      | some data =>
        match data with
        | .obj kvs =>
          if isTiuNumerik row.category row.subCategory then
            match normalizeDetailParagraphs (objGet kvs "detail_paragraphs".toList) with
            | .error _ => (.rowFailed, 1)
            | .ok cand0 =>
              if (dedupeParagraphs cand0).length < 4 then
                match parseResponse (stripFences retryReply) with
                | some (.obj kvs2) => (finishRow row kvs2, 2)
                | some _ => (.rowFailed, 2)
                | none => (finishRow row kvs, 2)
              else (finishRow row kvs, 1)
          else (finishRow row kvs, 1)
        | _ => (.rowFailed, 1)


/-!  ## Concrete fixture rows used by the witnesses -/

/-- A plain row: two populated options, option A strictly highest. -/
def rowParis : Row :=
  { category := some "TKP".toList,
    subCategory := some "Umum".toList,
    question := some "Ibu kota Prancis?".toList,
    textA := some "Paris".toList,
    textB := some "Lyon".toList,
    scoreA := some 10,
    scoreB := some 2 }

/-- A `TIU` row with a `Figural` sub-category. -/
def rowFigural : Row :=
  { rowParis with
    category := some "TIU".toList,
    subCategory := some "Figural".toList }

/-- A `TIU Numerik Dasar` row. -/
def rowNumerik : Row :=
  { category := some "TIU".toList,
    subCategory := some "Numerik Dasar".toList,
    question := some "Berapa 2+2?".toList,
    textA := some "4".toList,
    textB := some "5".toList,
    scoreA := some 5,
    scoreB := some 0 }

/-- A reason text that already satisfies the enrichment thresholds: two
sentences and more than 25 words, ending in a period. -/
def c8Reason : Str :=
  ("pilihan ini keliru karena tidak sesuai dengan konteks yang diminta oleh soal " ++
   "tersebut. penjelasan tambahan ini memastikan jumlah kata mencukupi batas minimum " ++
   "dua puluh lima kata untuk menghindari pengayaan ulang makna.").toList

/-- A reply whose decoded object has three distinct detail paragraphs. -/
def numReply : Str :=
  "\x7b\"detail_paragraphs\": [\"Langkah satu.\", \"Langkah dua.\", \"Langkah tiga.\"]\x7d".toList

/-- The members of the object `numReply` decodes to. -/
def numKvs : List (Str × Json) :=
  [("detail_paragraphs".toList,
    Json.arr [Json.str "Langkah satu.".toList, Json.str "Langkah dua.".toList,
      Json.str "Langkah tiga.".toList])]

/-!  # Theorems -/

/-!  ## Ordering and index-list invariants (C2, C3) -/

theorem orderFilter_mem {m : List Str} {l : List ℕ} {x : ℕ} :
    ∀ {seen : List ℕ}, x ∈ orderFilter m seen l →
      x ∈ l ∧ x < m.length ∧ m.getD x [] ≠ [] ∧ x ∉ seen := by
  induction l with
  | nil => intro seen h; simp [orderFilter] at h
  | cons a rest ih =>
    intro seen h
    simp only [orderFilter] at h
    split at h
    · rename_i hcond
      obtain ⟨h1, h2, h3, h4⟩ := ih h
      exact ⟨List.mem_cons_of_mem _ h1, h2, h3, h4⟩
    · rename_i hcond
      split at h
      · obtain ⟨h1, h2, h3, h4⟩ := ih h
        exact ⟨List.mem_cons_of_mem _ h1, h2, h3, h4⟩
      · rename_i htext
        push_neg at hcond
        rcases List.mem_cons.1 h with rfl | hx
        · exact ⟨List.mem_cons_self _ _, by omega, htext, hcond.1⟩
        · obtain ⟨h1, h2, h3, h4⟩ := ih hx
          have : x ∉ a :: seen := h4
          exact ⟨List.mem_cons_of_mem _ h1, h2, h3, fun hs => this (List.mem_cons_of_mem _ hs)⟩

theorem orderFilter_nodup (m : List Str) (l : List ℕ) :
    ∀ seen : List ℕ, (orderFilter m seen l).Nodup := by
  induction l with
  | nil => intro seen; simp [orderFilter]
  | cons a rest ih =>
    intro seen
    simp only [orderFilter]
    split
    · exact ih _
    · split
      · exact ih _
      · refine List.nodup_cons.2 ⟨fun hmem => ?_, ih _⟩
        have := (orderFilter_mem hmem).2.2.2
        simp at this

theorem orderIndices_mem {indices : List ℕ} {scores : List (Option ℚ)} {m : List Str} {x : ℕ}
    (h : x ∈ orderIndices indices scores m) :
    x ∈ indices ∧ x < m.length ∧ m.getD x [] ≠ [] := by
  unfold orderIndices at h
  have h2 := (List.mem_insertionSort (scoreKeyLE scores)).1 h
  obtain ⟨h1, h2, h3, _⟩ := orderFilter_mem h2
  exact ⟨h1, h2, h3⟩

theorem orderIndices_nodup (indices : List ℕ) (scores : List (Option ℚ)) (m : List Str) :
    (orderIndices indices scores m).Nodup := by
  unfold orderIndices
  exact ((List.perm_insertionSort (scoreKeyLE scores) _).nodup_iff).2
    (orderFilter_nodup m indices [])

/-- C3: within each inferred index list, `_order_indices` puts the
indices in descending-score order (a missing score reading as `−∞`),
with ties broken by the original (ascending) option order: every pair of
positions in its output is related by the strict "comes before"
relation. -/
theorem orderIndices_sorted (indices : List ℕ) (scores : List (Option ℚ)) (m : List Str) :
    List.Pairwise (scoreOrdBefore scores) (orderIndices indices scores m) := by
  have hsorted : List.Pairwise (scoreKeyLE scores) (orderIndices indices scores m) :=
    List.sorted_insertionSort _ _
  have hnodup := orderIndices_nodup indices scores m
  refine (hsorted.and hnodup).imp ?_
  rintro a b ⟨hle, hne⟩
  rcases hle with h | ⟨heq, hab⟩
  · exact Or.inl h
  · exact Or.inr ⟨heq, lt_of_le_of_ne hab hne⟩

theorem bpIncorrect_not_correct {row : Row} {x : ℕ}
    (h : x ∈ bpIncorrectIndices row) : x ∉ bpCorrectIndices row := by
  unfold bpIncorrectIndices at h
  simp only [List.mem_filter, List.mem_range, decide_eq_true_eq] at h
  exact h.2.1

/-- C2: the correct and incorrect index lists used to assemble the
document are disjoint, and neither contains an index whose option text
is empty. -/
theorem ordered_lists_disjoint_textful (row : Row) :
    (∀ i ∈ orderedCorrectIndices row, i ∉ orderedIncorrectIndices row) ∧
    (∀ i ∈ orderedCorrectIndices row, (buildOptionMap row).getD i [] ≠ []) ∧
    (∀ i ∈ orderedIncorrectIndices row, (buildOptionMap row).getD i [] ≠ []) := by
  refine ⟨fun i hic hii => ?_, fun i hi => (orderIndices_mem hi).2.2,
    fun i hi => (orderIndices_mem hi).2.2⟩
  exact bpIncorrect_not_correct (orderIndices_mem hii).1 (orderIndices_mem hic).1

/-!  ## Strict-maximum correctness inference (C1) -/

theorem foldl_max_le {m : ℚ} : ∀ {l : List ℚ} {a : ℚ}, (∀ x ∈ l, x ≤ m) → a ≤ m →
    l.foldl max a ≤ m := by
  intro l
  induction l with
  | nil => intro a _ ha; simpa using ha
  | cons x xs ih =>
    intro a hl ha
    simp only [List.foldl_cons]
    exact ih (fun y hy => hl y (List.mem_cons_of_mem _ hy))
      (max_le ha (hl x (List.mem_cons_self _ _)))

theorem le_foldl_max : ∀ {l : List ℚ} {a : ℚ}, a ≤ l.foldl max a := by
  intro l
  induction l with
  | nil => intro a; simp
  | cons x xs ih =>
    intro a
    simp only [List.foldl_cons]
    exact le_trans (le_max_left a x) ih

theorem mem_le_foldl_max : ∀ {l : List ℚ} {x : ℚ}, x ∈ l → ∀ a, x ≤ l.foldl max a := by
  intro l
  induction l with
  | nil => intro x hx; simp at hx
  | cons y ys ih =>
    intro x hx a
    simp only [List.foldl_cons]
    rcases List.mem_cons.1 hx with rfl | hmem
    · exact le_trans (le_max_right a x) le_foldl_max
    · exact ih hmem _

theorem scoredOptions_mem {row : Row} {j : ℕ} {t : ℚ} :
    (j, t) ∈ scoredOptions row ↔ j < 6 ∧ scoreCell row j = some t := by
  unfold scoredOptions
  simp only [List.mem_filterMap, List.mem_range, Option.map_eq_some']
  constructor
  · rintro ⟨a, ha, q, hq, heq⟩
    have h1 : a = j := congrArg Prod.fst heq
    have h2 : q = t := congrArg Prod.snd heq
    subst h1
    subst h2
    exact ⟨ha, hq⟩
  · rintro ⟨hj, hsc⟩
    exact ⟨j, hj, t, hsc, rfl⟩

theorem filterMap_range_eq_single {β : Type} {n : ℕ} {f : ℕ → Option β} {i : ℕ} {b : β}
    (hi : i < n) (hfi : f i = some b) (hothers : ∀ j, j < n → j ≠ i → f j = none) :
    (List.range n).filterMap f = [b] := by
  induction n with
  | zero => omega
  | succ n ih =>
    rw [List.range_succ, List.filterMap_append]
    rcases Nat.lt_or_ge i n with h | h
    · rw [ih h (fun j hj hne => hothers j (by omega) hne)]
      have hn : f n = none := hothers n (by omega) (by omega)
      simp [hn]
    · have hin : i = n := by omega
      subst hin
      have hempty : (List.range i).filterMap f = [] := by
        rw [List.filterMap_eq_nil_iff]
        intro j hj
        exact hothers j (by have := List.mem_range.1 hj; omega) (by have := List.mem_range.1 hj; omega)
      simp [hempty, hfi]

theorem inferStrategy1_strict_max {row : Row} {i : ℕ} {s : ℚ}
    (hi : i < 5) (hsc : scoreCell row i = some s)
    (hmax : ∀ j, j < 6 → j ≠ i → ∀ t, scoreCell row j = some t → t < s) :
    inferStrategy1 row = [i] := by
  have hmem : (i, s) ∈ scoredOptions row := scoredOptions_mem.2 ⟨by omega, hsc⟩
  have hub : ∀ x ∈ (scoredOptions row).map Prod.snd, x ≤ s := by
    intro x hx
    obtain ⟨⟨j, t⟩, hjt, rfl⟩ := List.mem_map.1 hx
    obtain ⟨hj6, hsct⟩ := scoredOptions_mem.1 hjt
    by_cases hji : j = i
    · subst hji
      rw [hsc] at hsct
      exact le_of_eq (Option.some.inj hsct).symm
    · exact le_of_lt (hmax j hj6 hji _ hsct)
  unfold inferStrategy1
  cases hscored : scoredOptions row with
  | nil => rw [hscored] at hmem; simp at hmem
  | cons p ps =>
    simp only []
    have hm : (ps.map Prod.snd).foldl max p.2 = s := by
      apply le_antisymm
      · apply foldl_max_le
        · intro x hx
          apply hub
          rw [hscored]
          simpa using Or.inr hx
        · apply hub
          rw [hscored]
          simp
      · have hsmem : s ∈ (p :: ps).map Prod.snd := by
          rw [← hscored]
          exact List.mem_map.2 ⟨(i, s), hmem, rfl⟩
        simp only [List.map_cons, List.mem_cons] at hsmem
        rcases hsmem with h | h
        · rw [← h]; exact le_foldl_max
        · exact mem_le_foldl_max h _
    rw [hm, ← hscored]
    unfold scoredOptions
    rw [List.filterMap_filterMap]
    apply filterMap_range_eq_single (by omega : i < 6)
    · rw [hsc]
      have hne5 : i ≠ 5 := by omega
      simp [slotIndexForMax, hne5]
    · intro j hj hne
      cases hcell : scoreCell row j with
      | none => simp [hcell]
      | some t =>
        have hlt := hmax j hj hne t hcell
        simp [hcell, hlt.ne]

theorem inferCorrect_strict_max {row : Row} {i : ℕ} {s : ℚ}
    (hi : i < 5) (hsc : scoreCell row i = some s)
    (hmax : ∀ j, j < 6 → j ≠ i → ∀ t, scoreCell row j = some t → t < s) :
    inferCorrectIndices row (buildOptionMap row) = [i] := by
  unfold inferCorrectIndices
  rw [inferStrategy1_strict_max hi hsc hmax]
  simp [dedupKeepFirst]

theorem bpCorrect_strict_max {row : Row} {i : ℕ} {s : ℚ}
    (hi : i < 5) (hsc : scoreCell row i = some s)
    (hmax : ∀ j, j < 6 → j ≠ i → ∀ t, scoreCell row j = some t → t < s) :
    bpCorrectIndices row = [i] := by
  unfold bpCorrectIndices
  dsimp only
  rw [inferCorrect_strict_max hi hsc hmax]
  by_cases hp : i < (buildOptionMap row).length ∧ (buildOptionMap row).getD i [] ≠ []
  · simp only [List.filter_cons, List.filter_nil, hp, and_true, ne_eq]
    simp
  · simp [List.filter_cons, hp, List.filter_nil]
    intro h1 h2
    rw [List.getD_eq_getElem?_getD] at hp
    exact absurd ⟨h1, h2⟩ hp

/-- C1: when exactly one lettered option slot holds the strictly maximal
numeric score (every other scored slot, the `Pilihan` slot included, is
strictly below it), `build_prompt` infers exactly that index as the sole
correct index, and its incorrect list is exactly the other indices whose
option text is non-empty, in original order. -/
theorem strict_max_inference (row : Row) (i : ℕ) (s : ℚ)
    (hi : i < 5) (hsc : scoreCell row i = some s)
    (hmax : ∀ j, j < 6 → j ≠ i → ∀ t, scoreCell row j = some t → t < s) :
    bpCorrectIndices row = [i] ∧
    bpIncorrectIndices row =
      (List.range 5).filter (fun j => j ≠ i ∧ (buildOptionMap row).getD j [] ≠ []) := by
  have hc := bpCorrect_strict_max hi hsc hmax
  refine ⟨hc, ?_⟩
  unfold bpIncorrectIndices
  dsimp only
  rw [hc]
  have hlen : (buildOptionMap row).length = 5 := by simp [buildOptionMap]
  rw [hlen]
  apply List.filter_congr
  intro j hj
  simp only [List.mem_range] at hj
  simp [hj]

/-- Witness for C1: on the concrete `rowParis`, option A (index 0,
score 10) is the strict maximum, the correct list is exactly `[0]` and
the incorrect list exactly `[1]`. -/
theorem strict_max_inference_witness :
    bpCorrectIndices rowParis = [0] ∧
    bpIncorrectIndices rowParis =
      (List.range 5).filter (fun j => j ≠ 0 ∧ (buildOptionMap rowParis).getD j [] ≠ []) := by
  refine strict_max_inference rowParis 0 10 (by omega) rfl ?_
  intro j hj hne t ht
  interval_cases j
  · omega
  · rw [show scoreCell rowParis 1 = some 2 from rfl] at ht
    rw [← Option.some.inj ht]
    norm_num
  · exact absurd ht (by rw [show scoreCell rowParis 2 = none from rfl]; simp)
  · exact absurd ht (by rw [show scoreCell rowParis 3 = none from rfl]; simp)
  · exact absurd ht (by rw [show scoreCell rowParis 4 = none from rfl]; simp)
  · exact absurd ht (by rw [show scoreCell rowParis 5 = none from rfl]; simp)

/-!  ## Policy-skipped rows (C4) -/

/-- C4: a row whose normalized category is `tiu` and whose normalized
sub-category starts with `figural` or `numerik deret` is skipped with
the excluded-category reason before any model call is made (zero calls),
and no document is produced. -/
theorem excluded_category_skipped (row : Row) (reply retryReply : Str)
    (hcat : normalizeLabelCell row.category = "tiu".toList)
    (hsub : "figural".toList.isPrefixOf (normalizeLabelCell row.subCategory) ∨
      "numerik deret".toList.isPrefixOf (normalizeLabelCell row.subCategory)) :
    processRow row reply retryReply =
      (RowOutcome.skippedExcluded
        (if "figural".toList.isPrefixOf (normalizeLabelCell row.subCategory) then
          "subkategori TIU figural di-skip.".toList
        else "subkategori TIU numerik deret di-skip.".toList), 0) := by
  have hskip : shouldSkipRow row.category row.subCategory =
      some (if "figural".toList.isPrefixOf (normalizeLabelCell row.subCategory) then
        "subkategori TIU figural di-skip.".toList
      else "subkategori TIU numerik deret di-skip.".toList) := by
    unfold shouldSkipRow
    rw [if_neg (by simp [hcat])]
    split_ifs with h1 h2
    · rfl
    · rfl
    · rcases hsub with h | h
      · exact absurd h h1
      · exact absurd h h2
  unfold processRow
  rw [hskip]

unseal collapseWS in
/-- Witness for C4 at the concrete `rowFigural`. -/
theorem excluded_category_skipped_witness :
    processRow rowFigural "whatever reply".toList [] =
      (RowOutcome.skippedExcluded "subkategori TIU figural di-skip.".toList, 0) := by
  have h := excluded_category_skipped rowFigural "whatever reply".toList []
    (by rfl) (Or.inl (by rfl))
  simpa using h

/-!  ## Reason enrichment always yields punctuated text (C10) -/

theorem pyRStrip_append_nonws {xs : Str} {c : Char} (hc : pyIsSpace c = false) :
    pyRStrip (xs ++ [c]) = xs ++ [c] := by
  unfold pyRStrip
  rw [List.reverse_append]
  simp only [List.reverse_cons, List.reverse_nil, List.nil_append, List.singleton_append,
    List.dropWhile_cons]
  rw [hc]
  simp

theorem pyStrip_append_nonws (xs : Str) {c : Char} (hc : pyIsSpace c = false) :
    ∃ zs, pyStrip (xs ++ [c]) = zs ++ [c] := by
  unfold pyStrip pyLStrip
  rw [List.dropWhile_append]
  split
  · refine ⟨[], ?_⟩
    simp only [List.dropWhile_cons, hc, List.dropWhile_nil]
    simpa using @pyRStrip_append_nonws [] _ hc
  · exact ⟨_, pyRStrip_append_nonws hc⟩

theorem punct_not_space {c : Char} (hc : sentencePunct c = true) : pyIsSpace c = false := by
  have : c = '.' ∨ c = '!' ∨ c = '?' := by
    simpa [sentencePunct, or_assoc] using hc
  rcases this with rfl | rfl | rfl <;> decide

theorem strip_ends_punct {t : Str} (ht : ∃ zs c, t = zs ++ [c] ∧ sentencePunct c = true) :
    pyStrip t ≠ [] ∧ (pyStrip t).getLast?.any sentencePunct = true := by
  obtain ⟨zs, c, rfl, hc⟩ := ht
  obtain ⟨ws', hws⟩ := pyStrip_append_nonws zs (punct_not_space hc)
  rw [hws]
  refine ⟨by simp, ?_⟩
  rw [List.getLast?_concat]
  simpa using hc

theorem ends_dot_append (a : Str) {b : Str} (h : ∃ z, b = z ++ ['.']) :
    ∃ z, a ++ b = z ++ ['.'] := by
  obtain ⟨z, rfl⟩ := h
  exact ⟨a ++ z, by rw [List.append_assoc]⟩

theorem intercalate_single (sep : Str) (x : Str) : List.intercalate sep [x] = x := by
  simp [List.intercalate]


theorem ex_ends_dot {t : Str} (h : ∃ z, t = z ++ ['.']) :
    ∃ zs c, t = zs ++ [c] ∧ sentencePunct c = true := by
  obtain ⟨z, rfl⟩ := h
  exact ⟨z, '.', rfl, rfl⟩

/-- Shared fact: `_enrich_reason` output is non-empty and ends in
sentence punctuation, whatever the inputs. -/
theorem enrichReason_ends (optionText reason correctText questionSummary : Str) :
    enrichReason optionText reason correctText questionSummary ≠ [] ∧
    (enrichReason optionText reason correctText questionSummary).getLast?.any
      sentencePunct = true := by
  unfold enrichReason
  dsimp only
  apply strip_ends_punct
  split_ifs
  all_goals dsimp only
  all_goals
    first
      | exact ex_ends_dot ⟨_, rfl⟩
      | (rw [intercalate_single]
         first
           | exact ex_ends_dot (ends_dot_append _ ⟨_, rfl⟩)
           | exact ex_ends_dot (ends_dot_append _
               ⟨"penjelasan perlu menyebutkan secara spesifik mengapa pilihan ini tidak memenuhi kebutuhan soal".toList,
                 rfl⟩))
      | (push_neg at *
         have hne : pyStrip reason ≠ [] := by
           intro hnil
           have h2 := ‹2 ≤ List.count '.' (pyStrip reason) + List.count '!' (pyStrip reason) +
             List.count '?' (pyStrip reason) ∧ 25 ≤ (pySplitWS (pyStrip reason)).length›
           rw [hnil] at h2
           simp at h2
         have hpunct := ‹pyStrip reason ≠ [] →
           Option.any sentencePunct (List.getLast? (pyStrip reason)) = true› hne
         refine ⟨(pyStrip reason).dropLast, (pyStrip reason).getLast hne,
           (List.dropLast_append_getLast hne).symm, ?_⟩
         rw [List.getLast?_eq_getLast _ hne] at hpunct
         simpa using hpunct)

/-- C10: `_enrich_reason` returns, for every input — an empty reason
included — a non-empty string ending in sentence punctuation
(`.`, `!` or `?`), so every emitted incorrect-option fragment carries a
non-empty reason text. -/
theorem enrichReason_nonempty_punct (optionText reason correctText questionSummary : Str) :
    enrichReason optionText reason correctText questionSummary ≠ [] ∧
    (enrichReason optionText reason correctText questionSummary).getLast?.any
      sentencePunct = true :=
  enrichReason_ends optionText reason correctText questionSummary

/-!  ## Idempotence of the stripping passes (C8) -/

theorem dropWhile_idem {p : Char → Bool} (l : Str) :
    (l.dropWhile p).dropWhile p = l.dropWhile p := by
  induction l with
  | nil => rfl
  | cons c cs ih =>
    by_cases hc : p c
    · simp [List.dropWhile_cons, hc, ih]
    · simp [List.dropWhile_cons, hc]

theorem pyLStrip_idem (l : Str) : pyLStrip (pyLStrip l) = pyLStrip l := dropWhile_idem l

theorem pyRStrip_idem (l : Str) : pyRStrip (pyRStrip l) = pyRStrip l := by
  unfold pyRStrip
  rw [List.reverse_reverse, dropWhile_idem]

theorem pyLStrip_head_not_space : ∀ {l : Str} {c : Char} {t : Str},
    pyLStrip l = c :: t → pyIsSpace c = false := by
  intro l
  induction l with
  | nil => intro c t h; cases h
  | cons a l ih =>
    intro c t h
    by_cases ha : pyIsSpace a
    · rw [pyLStrip, List.dropWhile_cons, if_pos ha] at h
      exact ih h
    · rw [pyLStrip, List.dropWhile_cons, if_neg ha] at h
      cases h
      simpa using ha

theorem pyRStrip_isPrefix (l : Str) : List.IsPrefix (pyRStrip l) l := by
  have h : List.IsSuffix (l.reverse.dropWhile pyIsSpace) l.reverse := List.dropWhile_suffix _
  have h2 := List.reverse_prefix.2 h
  simpa [pyRStrip] using h2

theorem pyStrip_idem (l : Str) : pyStrip (pyStrip l) = pyStrip l := by
  unfold pyStrip
  have hmid : pyLStrip (pyRStrip (pyLStrip l)) = pyRStrip (pyLStrip l) := by
    cases hx : pyRStrip (pyLStrip l) with
    | nil => rfl
    | cons c t =>
      have hpfx := pyRStrip_isPrefix (pyLStrip l)
      rw [hx] at hpfx
      obtain ⟨rest, hrest⟩ := hpfx
      have hc : pyIsSpace c = false := by
        refine @pyLStrip_head_not_space l _ (t ++ rest) ?_
        rw [← hrest]
        simp
      rw [pyLStrip, List.dropWhile_cons, if_neg (by simp [hc])]
  rw [hmid, pyRStrip_idem]

theorem stripPfxOnce_lt {s : Str} (h : stripPfxOnce s ≠ s) :
    (stripPfxOnce s).length < s.length := by
  have hsub := stripPfxOnce_sublist s
  have hle := hsub.length_le
  rcases Nat.lt_or_ge (stripPfxOnce s).length s.length with hlt | hge
  · exact hlt
  · exact absurd (hsub.eq_of_length (Nat.le_antisymm hle hge)) h

theorem stripPfxOnce_stripped (s : Str) : pyStrip (stripPfxOnce s) = stripPfxOnce s := by
  unfold stripPfxOnce
  exact pyStrip_idem _

theorem stripPfxLoopF_fix :
    ∀ fuel, ∀ s : Str, s.length < fuel →
      stripPfxOnce (stripPfxLoopF fuel s) = stripPfxLoopF fuel s ∧
      (pyStrip s = s → pyStrip (stripPfxLoopF fuel s) = stripPfxLoopF fuel s) := by
  intro fuel
  induction fuel with
  | zero => intro s hs; omega
  | succ n ih =>
    intro s hs
    by_cases h : stripPfxOnce s = s
    · rw [stripPfxLoopF, if_pos h]
      exact ⟨h, fun hstr => hstr⟩
    · rw [stripPfxLoopF, if_neg h]
      have hlt := stripPfxOnce_lt h
      exact ⟨(ih (stripPfxOnce s) (by omega)).1,
        fun _ => (ih (stripPfxOnce s) (by omega)).2 (stripPfxOnce_stripped s)⟩

theorem stripReasonPfx_idem (r : Str) : stripReasonPfx (stripReasonPfx r) = stripReasonPfx r := by
  unfold stripReasonPfx
  have h1 := stripPfxLoopF_fix ((pyStrip r).length + 1) (pyStrip r) (by omega)
  rw [h1.2 (pyStrip_idem r)]
  rw [stripPfxLoopF, if_pos h1.1]

/-!  ### Echo-stripping idempotence -/

theorem echo_trimmed_lt {oc c : Str} (hoc : oc ≠ [])
    (hpre : (pyLower oc).isPrefixOf (pyLower c) = true) :
    (pyStrip (pyLStripSet " ,:.-".toList (c.drop oc.length))).length < c.length := by
  have h2 : (pyStrip (pyLStripSet " ,:.-".toList (c.drop oc.length))).length ≤
      (c.drop oc.length).length :=
    (List.Sublist.length_le ((pyStrip_sublist _).trans (pyLStripSet_sublist _ _)))
  have hlen : oc.length ≤ c.length := by
    have := List.IsPrefix.length_le ((List.isPrefixOf_iff_prefix).1 hpre)
    simpa [pyLower] using this
  have hpos : 1 ≤ oc.length := by
    cases oc with
    | nil => exact absurd rfl hoc
    | cons _ _ => simp
  have hdrop : (c.drop oc.length).length = c.length - oc.length := List.length_drop _ _
  omega

theorem isPrefixOf_nil_false {oc : Str} (hoc : oc ≠ []) :
    (pyLower oc).isPrefixOf ([] : Str) = false := by
  cases oc with
  | nil => exact absurd rfl hoc
  | cons a l => simp [pyLower, List.isPrefixOf]

theorem echoLoopF_props (oc : Str) (hoc : oc ≠ []) :
    ∀ fuel, ∀ c : Str, c.length < fuel →
      (pyStrip c = c → pyStrip (echoLoopF oc fuel c) = echoLoopF oc fuel c) ∧
      (echoLoopF oc fuel c = [] ∨
        (pyLower oc).isPrefixOf (pyLower (echoLoopF oc fuel c)) = false) := by
  intro fuel
  induction fuel with
  | zero => intro c hc; omega
  | succ n ih =>
    intro c hc
    rw [echoLoopF]
    by_cases hpre : (pyLower oc).isPrefixOf (pyLower c) = true
    · rw [if_pos hpre]
      by_cases htr : pyStrip (pyLStripSet " ,:.-".toList (c.drop oc.length)) = []
      · rw [if_pos htr]
        exact ⟨fun _ => rfl, Or.inl rfl⟩
      · rw [if_neg htr]
        have hlt := echo_trimmed_lt hoc hpre
        have hrec := ih (pyStrip (pyLStripSet " ,:.-".toList (c.drop oc.length))) (by omega)
        exact ⟨fun _ => hrec.1 (pyStrip_idem _), hrec.2⟩
    · rw [if_neg hpre]
      exact ⟨fun h => h, Or.inr (Bool.eq_false_iff.2 hpre)⟩

theorem echoLoopF_nil (oc : Str) (hoc : oc ≠ []) (fuel : ℕ) :
    echoLoopF oc fuel [] = [] := by
  cases fuel with
  | zero => rfl
  | succ n =>
    rw [echoLoopF,
      if_neg (by rw [show pyLower ([] : Str) = [] from rfl, isPrefixOf_nil_false hoc]; simp)]

theorem echoLoopF_fix (oc : Str) (hoc : oc ≠ []) {c : Str} {fuel : ℕ} (hc : c.length < fuel)
    (fuel2 : ℕ) :
    echoLoopF oc fuel2 (echoLoopF oc fuel c) = echoLoopF oc fuel c := by
  rcases (echoLoopF_props oc hoc fuel c hc).2 with h | h
  · rw [h, echoLoopF_nil oc hoc]
  · cases fuel2 with
    | zero => rfl
    | succ n => rw [echoLoopF, if_neg (by simp [h])]

theorem stripOptionEcho_idem (r o : Str) :
    stripOptionEcho (stripOptionEcho r o) o = stripOptionEcho r o := by
  unfold stripOptionEcho
  by_cases ho : pyStrip o = []
  · simp only [if_pos ho]
    exact pyStrip_idem r
  · simp only [if_neg ho]
    have hstr := (echoLoopF_props (pyStrip o) ho ((pyStrip r).length + 1) (pyStrip r)
      (by omega)).1 (pyStrip_idem r)
    rw [hstr]
    exact echoLoopF_fix (pyStrip o) ho (by omega) _

theorem enrichReason_strip_fixed (o r c q : Str) :
    pyStrip (enrichReason o r c q) = enrichReason o r c q := by
  unfold enrichReason
  dsimp only
  exact pyStrip_idem _

theorem enrichReason_fixed {o c q t : Str}
    (hstrip : pyStrip t = t)
    (hlast : t.getLast?.any sentencePunct = true)
    (hsc : 2 ≤ t.count '.' + t.count '!' + t.count '?')
    (hwc : 25 ≤ (pySplitWS t).length) :
    enrichReason o t c q = t := by
  unfold enrichReason
  dsimp only
  rw [hstrip]
  have hcl : (if t ≠ [] ∧ ¬ t.getLast?.any sentencePunct = true then t ++ ['.'] else t) = t :=
    if_neg (by simp [hlast])
  rw [hcl]
  rw [show (if t.count '.' + t.count '!' + t.count '?' < 2 ∨ (pySplitWS t).length < 25 then
      [if o ≠ [] ∧ c ≠ [] then
          "penjelasan ini masih menyoroti ".toList ++ o ++
            " tanpa mengaitkannya dengan inti soal mengenai ".toList ++ c ++ ".".toList
        else if c ≠ [] then
          "penjelasan ini belum menunjukkan keterkaitan dengan tuntutan soal tentang ".toList ++
            c ++ ".".toList
        else
          "penjelasan perlu menyebutkan secara spesifik mengapa pilihan ini tidak memenuhi kebutuhan soal.".toList]
    else []) = ([] : List Str) from if_neg (by omega)]
  exact hstrip

/-- C8 (amended): the prefix-stripping and echo-stripping passes are
idempotent unconditionally, and the full normalization sequence is
idempotent provided its first output is itself fixed by both stripping
passes and already meets the enrichment thresholds (at least two
sentence-punctuation marks and at least 25 words); without those
conditions a second pass re-appends the enrichment supplement. -/
theorem normalize_seq_cond_idem (o r c q : Str)
    (h1 : stripReasonPfx (normalizeReasonSeq o r c q) = normalizeReasonSeq o r c q)
    (h2 : stripOptionEcho (normalizeReasonSeq o r c q) o = normalizeReasonSeq o r c q)
    (hsc : 2 ≤ (normalizeReasonSeq o r c q).count '.' +
        (normalizeReasonSeq o r c q).count '!' + (normalizeReasonSeq o r c q).count '?')
    (hwc : 25 ≤ (pySplitWS (normalizeReasonSeq o r c q)).length) :
    (∀ s, stripReasonPfx (stripReasonPfx s) = stripReasonPfx s) ∧
    (∀ s oc, stripOptionEcho (stripOptionEcho s oc) oc = stripOptionEcho s oc) ∧
    normalizeReasonSeq o (normalizeReasonSeq o r c q) c q = normalizeReasonSeq o r c q := by
  refine ⟨stripReasonPfx_idem, stripOptionEcho_idem, ?_⟩
  conv_lhs => rw [normalizeReasonSeq]
  rw [h1, h2]
  refine enrichReason_fixed ?_ ?_ hsc hwc
  · show pyStrip (normalizeReasonSeq o r c q) = normalizeReasonSeq o r c q
    rw [normalizeReasonSeq]
    exact enrichReason_strip_fixed _ _ _ _
  · show (normalizeReasonSeq o r c q).getLast?.any sentencePunct = true
    rw [normalizeReasonSeq]
    exact (enrichReason_ends _ _ _ _).2

set_option maxRecDepth 10000 in
unseal pySplitWS in
/-- Witness for the amended C8 theorem at a concrete reason that already
meets the thresholds. -/
theorem normalize_seq_cond_idem_witness :
    normalizeReasonSeq "Jakarta".toList
        (normalizeReasonSeq "Jakarta".toList c8Reason "Paris".toList [])
        "Paris".toList []
      = normalizeReasonSeq "Jakarta".toList c8Reason "Paris".toList [] := by
  have hout : normalizeReasonSeq "Jakarta".toList c8Reason "Paris".toList [] = c8Reason := by
    rfl
  exact (normalize_seq_cond_idem "Jakarta".toList c8Reason "Paris".toList []
    (by rw [hout]; rfl) (by rw [hout]; rfl)
    (by rw [hout, show c8Reason.count '.' = 2 from rfl,
          show c8Reason.count '!' = 0 from rfl, show c8Reason.count '?' = 0 from rfl])
    (by rw [hout, show (pySplitWS c8Reason).length = 31 from rfl]; omega)).2.2

set_option maxRecDepth 10000 in
unseal pySplitWS in
/-- C8 counterexample: re-running the normalization sequence on its own
output re-appends the enrichment supplement when the output is short, so
the sequence is not idempotent as literally claimed. -/
theorem normalize_seq_not_idem_cex :
    normalizeReasonSeq "London".toList
        (normalizeReasonSeq "London".toList [] "Paris".toList [])
        "Paris".toList []
      ≠ normalizeReasonSeq "London".toList [] "Paris".toList [] := by
  have h1 : normalizeReasonSeq "London".toList [] "Paris".toList [] =
      ("penjelasan ini masih menyoroti London tanpa mengaitkannya dengan inti soal " ++
       "mengenai Paris.").toList := by
    rfl
  rw [h1]
  have h2 : normalizeReasonSeq "London".toList
      ("penjelasan ini masih menyoroti London tanpa mengaitkannya dengan inti soal " ++
       "mengenai Paris.").toList "Paris".toList [] =
      ("penjelasan ini masih menyoroti London tanpa mengaitkannya dengan inti soal " ++
       "mengenai Paris. penjelasan ini masih menyoroti London tanpa mengaitkannya " ++
       "dengan inti soal mengenai Paris.").toList := by
    rfl
  rw [h2]
  intro h
  have := congrArg List.length h
  simp at this

/-!  ## Capitalization normalization (C9) -/

theorem alpha_not_space {c : Char} (h : pyIsAlpha c = true) : pyIsSpace c = false := by
  refine Bool.eq_false_iff.2 (fun hs => ?_)
  unfold pyIsAlpha at h
  unfold pyIsSpace at hs
  simp only [Bool.or_eq_true, Bool.and_eq_true, decide_eq_true_eq, beq_iff_eq] at h hs
  rcases hs with ((((((rfl|rfl)|rfl)|rfl)|rfl)|rfl)|rfl) <;> revert h <;> decide

theorem alpha_wordClass {c : Char} (h : pyIsAlpha c = true) : wordClass c = true := by
  unfold pyIsAlpha at h
  unfold wordClass
  simp only [Bool.or_eq_true, Bool.and_eq_true, decide_eq_true_eq, beq_iff_eq] at h ⊢
  rcases h with (((⟨h1, h2⟩ | ⟨h1, h2⟩) | ⟨h1, h2⟩) | ⟨h1, h2⟩) | ⟨h1, h2⟩
  · exact Or.inl (Or.inl (Or.inl ⟨h1, h2⟩))
  · exact Or.inl (Or.inl (Or.inr ⟨h1, h2⟩))
  · exact Or.inl (Or.inr ⟨h1, le_trans h2 (by decide)⟩)
  · exact Or.inl (Or.inr ⟨le_trans (by decide) h1, le_trans h2 (by decide)⟩)
  · exact Or.inl (Or.inr ⟨le_trans (by decide) h1, le_trans h2 (by decide)⟩)

theorem takeWhile_append_all {p : Char → Bool} {l1 : Str} (h : ∀ x ∈ l1, p x = true)
    (y : Char) (hy : p y = false) (l2 : Str) :
    ((l1 ++ y :: l2).takeWhile p = l1) ∧ ((l1 ++ y :: l2).dropWhile p = y :: l2) := by
  induction l1 with
  | nil => simp [List.takeWhile_cons, List.dropWhile_cons, hy]
  | cons a l ih =>
    have ha := h a (by simp)
    have hrest : ∀ x ∈ l, p x = true := fun x hx => h x (by simp [hx])
    simp only [List.cons_append, List.takeWhile_cons, List.dropWhile_cons, ha, if_pos]
    exact ⟨by rw [(ih hrest).1], (ih hrest).2⟩

theorem length_nil_lt (c : Char) (cs : Str) : ¬ (c :: cs).length ≤ ([] : Str).length := by
  simp

theorem splitFirstColon_none {s : Str} (h : ':' ∉ s) : splitFirstColon s = none := by
  unfold splitFirstColon
  have heq : s.takeWhile (fun c => c ≠ ':') = s := by
    rw [List.takeWhile_eq_self_iff]
    intro x hx
    simp only [ne_eq, decide_eq_true_eq]
    rintro rfl
    exact h hx
  rw [if_neg]
  rw [heq]
  omega

theorem pyLStrip_cons_not_space {c : Char} (cs : Str) (h : pyIsSpace c = false) :
    pyLStrip (c :: cs) = c :: cs := by
  unfold pyLStrip
  rw [List.dropWhile_cons, if_neg (by simp [h])]

theorem noColonBranch_alpha (text : Str) (c : Char) (cs : Str) (preserve : List Str)
    (hα : pyIsAlpha c = true) :
    noColonBranch text [] (c :: cs) preserve =
      if (c :: cs).takeWhile wordClass ∈ preserve ∨
          pyLower ((c :: cs).takeWhile wordClass) = "anda".toList then text
      else lowerFirst ((c :: cs).takeWhile wordClass) ++
        (c :: cs).drop ((c :: cs).takeWhile wordClass).length := by
  have hw : (c :: cs).takeWhile (fun x => !pyIsAlpha x) = [] := by
    rw [List.takeWhile_cons]
    simp [hα]
  have hne : ¬ (c :: cs).takeWhile wordClass = [] := by
    rw [List.takeWhile_cons, if_pos (alpha_wordClass hα)]
    simp
  unfold noColonBranch
  dsimp only
  rw [hw]
  simp only [List.length_nil, List.drop_zero, List.take_zero, List.nil_append]
  rw [if_neg (by simp : ¬ (c :: cs).length ≤ 0)]
  rw [if_neg hne]

/-- C9 (amended): `_normalize_reason_capital` never capitalizes.  With no
colon present it lower-cases the first letter of the leading word-class
token (unless that token is preserved or is the pronoun `anda`, in which
case the text is unchanged); after a colon followed by text it
lower-cases the whole first word after the colon, with the same
preserved-token / `anda` exception. -/
theorem normalize_capital_characterized (preserve : List Str) :
    (∀ c cs, pyIsAlpha c = true → ':' ∉ c :: cs →
      normalizeReasonCapital (c :: cs) preserve =
        if (c :: cs).takeWhile wordClass ∈ preserve ∨
            pyLower ((c :: cs).takeWhile wordClass) = "anda".toList then c :: cs
        else lowerFirst ((c :: cs).takeWhile wordClass) ++
          (c :: cs).drop ((c :: cs).takeWhile wordClass).length) ∧
    (∀ c pfx d rest, pyIsAlpha c = true → ':' ∉ c :: pfx →
      pyIsSpace d = false → wordClass d = true →
      ¬ "adalah ".toList.isPrefixOf (pyLower (d :: rest)) →
      normalizeReasonCapital ((c :: pfx) ++ ':' :: ' ' :: d :: rest) preserve =
        if (d :: rest).takeWhile wordClass ∈ preserve ∨
            pyLower ((d :: rest).takeWhile wordClass) = "anda".toList then
          (c :: pfx) ++ ':' :: ' ' :: d :: rest
        else (c :: pfx) ++ ':' :: ' ' :: (pyLower ((d :: rest).takeWhile wordClass) ++
          (d :: rest).drop ((d :: rest).takeWhile wordClass).length)) := by
  constructor
  · intro c cs hα hnc
    unfold normalizeReasonCapital
    rw [if_neg (by simp : ¬ (c :: cs) = [])]
    dsimp only
    rw [pyLStrip_cons_not_space cs (alpha_not_space hα)]
    simp only [Nat.sub_self, List.take_zero, List.drop_zero]
    rw [splitFirstColon_none hnc]
    exact noColonBranch_alpha (c :: cs) c cs preserve hα
  · intro c pfx d rest hα hnc hds hdw hadal
    unfold normalizeReasonCapital
    rw [if_neg (by simp : ¬ (c :: pfx) ++ ':' :: ' ' :: d :: rest = [])]
    dsimp only
    have hhead : pyLStrip ((c :: pfx) ++ ':' :: ' ' :: d :: rest) =
        (c :: pfx) ++ ':' :: ' ' :: d :: rest :=
      pyLStrip_cons_not_space _ (alpha_not_space hα)
    rw [hhead]
    simp only [Nat.sub_self, List.take_zero, List.drop_zero]
    have hall : ∀ x ∈ c :: pfx, (fun x => decide (x ≠ ':')) x = true := by
      intro x hx
      simp only [ne_eq, decide_eq_true_eq]
      rintro rfl
      exact hnc hx
    have hsplit : splitFirstColon ((c :: pfx) ++ ':' :: ' ' :: d :: rest) =
        some (c :: pfx, ' ' :: d :: rest) := by
      unfold splitFirstColon
      have htw := takeWhile_append_all hall ':' (by simp) (' ' :: d :: rest)
      rw [if_pos, htw.1, htw.2]
      · rfl
      · rw [htw.1]
        simp
    rw [hsplit]
    dsimp only
    rw [if_pos (by simp : (' ' :: d :: rest : Str) ≠ [])]
    have hrest0 : pyLStrip (' ' :: d :: rest) = d :: rest := by
      unfold pyLStrip
      rw [List.dropWhile_cons, if_pos (by simp [pyIsSpace]), List.dropWhile_cons,
        if_neg (by simp [hds])]
    rw [hrest0]
    rw [if_neg hadal]
    rw [if_neg (by simp : ¬ (d :: rest : Str) = [])]
    have hne2 : ¬ (d :: rest).takeWhile wordClass = [] := by
      rw [List.takeWhile_cons, if_pos hdw]
      simp
    rw [if_neg hne2]
    have hsp : (' ' :: d :: rest).take ((' ' :: d :: rest).length - (d :: rest).length) =
        [' '] := by
      simp only [List.length_cons]
      have hlen : rest.length + 1 + 1 - (rest.length + 1) = 1 := by omega
      rw [hlen]
      rfl
    rw [hsp]
    rw [if_neg (by simp : ¬ ([' '] : Str) = [])]
    by_cases hmem : (d :: rest).takeWhile wordClass ∈ preserve ∨
        pyLower ((d :: rest).takeWhile wordClass) = "anda".toList
    · rw [if_pos hmem, if_pos hmem]
      rw [if_neg (by simp : ¬ (d :: rest : Str) = [])]
      simp
    · rw [if_neg hmem, if_neg hmem]
      have hne3 : ¬ pyLower ((d :: rest).takeWhile wordClass) ++
          (d :: rest).drop ((d :: rest).takeWhile wordClass).length = [] := by
        rw [List.takeWhile_cons, if_pos hdw]
        simp [pyLower]
      rw [if_neg hne3]
      simp

set_option maxRecDepth 10000 in
unseal findTokens in
/-- Witness for the amended C9 theorem: a preserved proper noun after a
colon-free start stays untouched, and a non-preserved word after a colon
is lower-cased in full. -/
theorem normalize_capital_characterized_witness :
    normalizeReasonCapital ('P' :: "aris adalah ibu kota Inggris".toList)
        (extractProperTokens ["London:".toList, "Paris".toList]) =
      'P' :: "aris adalah ibu kota Inggris".toList ∧
    normalizeReasonCapital
        (('B' :: "agus".toList) ++ ':' :: ' ' :: 'K' :: "arena tidak salah".toList) [] =
      "Bagus: karena tidak salah".toList := by
  constructor
  · rw [(normalize_capital_characterized
      (extractProperTokens ["London:".toList, "Paris".toList])).1
      'P' "aris adalah ibu kota Inggris".toList (by decide) (by decide)]
    decide
  · rw [(normalize_capital_characterized []).2
      'B' "agus".toList 'K' "arena tidak salah".toList
      (by decide) (by decide) (by decide) (by decide) (by decide)]
    decide

/-- C9 counterexample: `_normalize_reason_capital` lower-cases the first
letter of a colon-free reason instead of capitalizing it, so the claimed
capitalization behaviour does not occur. -/
theorem normalize_capital_cex :
    normalizeReasonCapital "Bagus sekali".toList [] = "bagus sekali".toList ∧
    normalizeReasonCapital "bagus sekali".toList [] ≠ "Bagus sekali".toList := by
  exact ⟨by rfl, by decide⟩

/-!  ## Parse attempts and the unparseable-row path (C5) -/

/-- C5: the response parser is a total function equal to the first
success of the four attempts (direct parse; repair then parse; parse of
the first-brace/last-brace candidate; repair of the candidate then
parse), returning `none` as the typed unparseable failure; and on a row
that reaches parsing, a failed parse skips the row, preserving the raw
stripped reply, with no document produced. -/
theorem parse_first_success_or_skip :
    (∀ raw, parseResponse raw =
      firstSome [parseAttempt1 raw, parseAttempt2 raw, parseAttempt3 raw, parseAttempt4 raw]) ∧
    (∀ row reply retryReply, shouldSkipRow row.category row.subCategory = none →
      orderedCorrectIndices row ≠ [] →
      parseResponse (stripFences reply) = none →
      processRow row reply retryReply = (.skippedUnparseable (stripFences reply), 1)) := by
  constructor
  · intro raw
    unfold parseResponse parseAttempt1 parseAttempt2 parseAttempt3 parseAttempt4
    cases h1 : jsonLoads raw with
    | some p => rfl
    | none =>
      cases h2 : jsonLoads (repairJsonText raw) with
      | some p => rfl
      | none =>
        cases h3 : firstBraceCandidate raw with
        | none => rfl
        | some cand =>
          dsimp only
          cases h4 : jsonLoads cand with
          | some p => simp only [Option.some_bind, h4]; rfl
          | none =>
            simp only [Option.some_bind, h4]
            cases h5 : jsonLoads (repairJsonText cand) with
            | some p => rfl
            | none => rfl
  · intro row reply retryReply hskip hcorr hparse
    unfold processRow
    rw [hskip]
    dsimp only
    rw [if_neg hcorr]
    rw [hparse]

set_option maxRecDepth 10000 in
unseal collapseWS pySplitWS htmlUnescape removeTags findTokens stripBacktickComma wrapMathScan removeSpanTags brToNewline splitLines renderNatGo repairGo parseStrBody in
/-- Witness for C5 at a garbage reply on a plain row. -/
theorem parse_first_success_or_skip_witness :
    processRow rowParis "no json here".toList [] =
      (.skippedUnparseable (stripFences "no json here".toList), 1) := by
  have hc0 : orderedCorrectIndices rowParis = [0] := by rfl
  exact parse_first_success_or_skip.2 rowParis "no json here".toList []
    (by rfl) (by rw [hc0]; exact List.cons_ne_nil 0 []) (by rfl)

/-!  ## The single numeric re-prompt (C7) -/

/-- C7: on a numeric-tiu row whose parsed reply has fewer than four
distinct detail paragraphs after deduplication, exactly one extra model
call is made (two calls total), and when the retry reply fails to parse
the row proceeds with the originally parsed members. -/
theorem numeric_retry_once (row : Row) (reply retryReply : Str)
    (kvs : List (Str × Json)) (cand0 : List Str)
    (hskip : shouldSkipRow row.category row.subCategory = none)
    (hcorr : orderedCorrectIndices row ≠ [])
    (hnum : isTiuNumerik row.category row.subCategory = true)
    (hparse : parseResponse (stripFences reply) = some (.obj kvs))
    (hdet : normalizeDetailParagraphs (objGet kvs "detail_paragraphs".toList) = .ok cand0)
    (hfew : (dedupeParagraphs cand0).length < 4) :
    (processRow row reply retryReply).2 = 2 ∧
    (parseResponse (stripFences retryReply) = none →
      processRow row reply retryReply = (finishRow row kvs, 2)) := by
  have hopen : processRow row reply retryReply =
      match parseResponse (stripFences retryReply) with
      | some (.obj kvs2) => (finishRow row kvs2, 2)
      | some _ => (.rowFailed, 2)
      | none => (finishRow row kvs, 2) := by
    unfold processRow
    rw [hskip]
    dsimp only
    rw [if_neg hcorr]
    rw [hparse]
    dsimp only
    rw [if_pos hnum]
    rw [hdet]
    dsimp only
    rw [if_pos hfew]
  constructor
  · rw [hopen]
    cases hr : parseResponse (stripFences retryReply) with
    | none => rfl
    | some v => cases v <;> rfl
  · intro hnone
    rw [hopen, hnone]

set_option maxRecDepth 10000 in
unseal collapseWS pySplitWS htmlUnescape removeTags findTokens stripBacktickComma wrapMathScan removeSpanTags brToNewline splitLines renderNatGo repairGo parseStrBody in
/-- Witness for C7: a numeric row with a three-paragraph reply and an
unparseable retry reply. -/
theorem numeric_retry_once_witness :
    (processRow rowNumerik numReply "oops".toList).2 = 2 ∧
    processRow rowNumerik numReply "oops".toList = (finishRow rowNumerik numKvs, 2) := by
  have hc0 : orderedCorrectIndices rowNumerik = [0] := by rfl
  have h := numeric_retry_once rowNumerik numReply "oops".toList numKvs
    ["Langkah satu.".toList, "Langkah dua.".toList, "Langkah tiga.".toList]
    (by rfl) (by rw [hc0]; exact List.cons_ne_nil 0 []) (by rfl) (by rfl) (by rfl)
    (by rw [show (dedupeParagraphs ["Langkah satu.".toList, "Langkah dua.".toList,
      "Langkah tiga.".toList]).length = 3 from rfl]; omega)
  exact ⟨h.1, h.2 (by rfl)⟩

/-!  ## C6: the render/repair/parse round trip

Everything below works towards C6: a reply that is well formed except
for literal newlines inside quoted strings (`renderLenient v`) is mapped
by the repair pass to the strictly well-formed reply (`render v`), which
the decoder parses back to `v`. -/

/-!  ### Digits and canonical number rendering -/

theorem digitChar_toNat {m : ℕ} (h : m < 10) : (digitChar m).toNat = 48 + m := by
  interval_cases m <;> decide

theorem digitChar_isDigit {m : ℕ} (h : m < 10) : pyIsDigit (digitChar m) = true := by
  interval_cases m <;> decide

theorem renderNatGo_digits : ∀ n acc, (∀ c ∈ acc, pyIsDigit c = true) →
    ∀ c ∈ renderNatGo n acc, pyIsDigit c = true := by
  intro n
  induction n using Nat.strong_induction_on with
  | _ n ih =>
    intro acc hacc c hc
    rw [renderNatGo] at hc
    by_cases h : n < 10
    · rw [dif_pos h] at hc
      rcases List.mem_cons.1 hc with rfl | hm
      · exact digitChar_isDigit h
      · exact hacc c hm
    · rw [dif_neg h] at hc
      exact ih (n / 10) (Nat.div_lt_self (by omega) (by omega))
        (digitChar (n % 10) :: acc)
        (fun d hd => by
          rcases List.mem_cons.1 hd with rfl | hm
          · exact digitChar_isDigit (Nat.mod_lt _ (by omega))
          · exact hacc d hm) c hc

theorem renderNat_digits (n : ℕ) : ∀ c ∈ renderNat n, pyIsDigit c = true :=
  renderNatGo_digits n [] (by simp)

theorem renderNatGo_append : ∀ n acc, renderNatGo n acc = renderNat n ++ acc := by
  intro n
  induction n using Nat.strong_induction_on with
  | _ n ih =>
    intro acc
    by_cases h : n < 10
    · rw [renderNatGo, dif_pos h, renderNat, renderNatGo, dif_pos h]
      rfl
    · have hlt : n / 10 < n := Nat.div_lt_self (by omega) (by omega)
      rw [renderNatGo, dif_neg h]
      rw [ih (n / 10) hlt (digitChar (n % 10) :: acc)]
      conv_rhs => rw [renderNat, renderNatGo, dif_neg h,
        ih (n / 10) hlt [digitChar (n % 10)]]
      simp

theorem renderNat_ne_nil (n : ℕ) : renderNat n ≠ [] := by
  rw [renderNat, renderNatGo]
  by_cases h : n < 10
  · rw [dif_pos h]
    simp
  · rw [dif_neg h, renderNatGo_append]
    simp

theorem digitsToNat_renderNat : ∀ n, digitsToNat (renderNat n) = n := by
  intro n
  induction n using Nat.strong_induction_on with
  | _ n ih =>
    by_cases h : n < 10
    · rw [renderNat, renderNatGo, dif_pos h]
      unfold digitsToNat
      simp [digitChar_toNat h]
    · rw [renderNat, renderNatGo, dif_neg h, renderNatGo_append]
      unfold digitsToNat
      rw [List.foldl_append]
      have hrec := ih (n / 10) (Nat.div_lt_self (by omega) (by omega))
      unfold digitsToNat at hrec
      rw [hrec]
      simp only [List.foldl_cons, List.foldl_nil]
      rw [digitChar_toNat (Nat.mod_lt _ (by omega))]
      omega

/-!  ### Step equations for `parseStrBody` -/

theorem psb_quote (cs : Str) : parseStrBody ('"' :: cs) = some ([], cs) := by
  rw [parseStrBody.eq_def]
  dsimp only
  rw [if_pos rfl]

theorem psb_esc (e : Char) (cs2 : Str) (he : ¬ e = 'u') :
    parseStrBody ('\\' :: e :: cs2) =
      match escChar e with
      | some ec => (parseStrBody cs2).map (fun p => (ec :: p.1, p.2))
      | none => none := by
  rw [parseStrBody.eq_def]
  dsimp only
  rw [if_neg (by decide : ¬ ('\\' : Char) = '"'), if_pos rfl]
  rw [if_neg he]

theorem psb_plain (c : Char) (cs : Str) (h1 : ¬ c = '"') (h2 : ¬ c = '\\')
    (h3 : ¬ c.toNat < 32) :
    parseStrBody (c :: cs) = (parseStrBody cs).map (fun p => (c :: p.1, p.2)) := by
  rw [parseStrBody.eq_def]
  dsimp only
  rw [if_neg h1, if_neg h2, if_neg h3]

/-!  ### Completeness of the string-body parser on strict renderings -/

theorem renderBody_nil (esc : Char → Str) : renderBodyWith esc [] = [] := rfl

theorem renderBody_cons (esc : Char → Str) (c : Char) (s : Str) :
    renderBodyWith esc (c :: s) = esc c ++ renderBodyWith esc s := rfl

theorem okChar_printable {c : Char} (hok : okChar c = true)
    (h1 : ¬ c = '\n') (h2 : ¬ c = '\r') (h3 : ¬ c = '\t') : ¬ c.toNat < 32 := by
  unfold okChar at hok
  simp only [Bool.or_eq_true, beq_iff_eq, decide_eq_true_eq] at hok
  rcases hok with ((h | h) | h) | h
  · omega
  · exact absurd h h1
  · exact absurd h h2
  · exact absurd h h3

theorem parseStrBody_complete :
    ∀ s rest, s.all okChar = true →
      parseStrBody (renderBodyWith renderChar s ++ '"' :: rest) = some (s, rest) := by
  intro s
  induction s with
  | nil =>
    intro rest _
    rw [renderBody_nil, List.nil_append]
    exact psb_quote rest
  | cons c s' ih =>
    intro rest hok
    have hokc : okChar c = true := by
      simp only [List.all_cons, Bool.and_eq_true] at hok
      exact hok.1
    have hoks : s'.all okChar = true := by
      simp only [List.all_cons, Bool.and_eq_true] at hok
      exact hok.2
    rw [renderBody_cons, List.append_assoc]
    by_cases hc1 : c = '"'
    · subst hc1
      rw [show renderChar '"' = ['\\', '"'] from rfl]
      rw [show (['\\', '"'] : Str) ++ (renderBodyWith renderChar s' ++ '"' :: rest) =
        '\\' :: '"' :: (renderBodyWith renderChar s' ++ '"' :: rest) from rfl]
      rw [psb_esc _ _ (by decide)]
      rw [show escChar '"' = some '"' from rfl]
      rw [ih rest hoks]
      rfl
    by_cases hc2 : c = '\\'
    · subst hc2
      rw [show renderChar '\\' = ['\\', '\\'] from rfl]
      rw [show (['\\', '\\'] : Str) ++ (renderBodyWith renderChar s' ++ '"' :: rest) =
        '\\' :: '\\' :: (renderBodyWith renderChar s' ++ '"' :: rest) from rfl]
      rw [psb_esc _ _ (by decide)]
      rw [show escChar '\\' = some '\\' from rfl]
      rw [ih rest hoks]
      rfl
    by_cases hc3 : c = '\n'
    · subst hc3
      rw [show renderChar '\n' = ['\\', 'n'] from rfl]
      rw [show (['\\', 'n'] : Str) ++ (renderBodyWith renderChar s' ++ '"' :: rest) =
        '\\' :: 'n' :: (renderBodyWith renderChar s' ++ '"' :: rest) from rfl]
      rw [psb_esc _ _ (by decide)]
      rw [show escChar 'n' = some '\n' from rfl]
      rw [ih rest hoks]
      rfl
    by_cases hc4 : c = '\r'
    · subst hc4
      rw [show renderChar '\r' = ['\\', 'r'] from rfl]
      rw [show (['\\', 'r'] : Str) ++ (renderBodyWith renderChar s' ++ '"' :: rest) =
        '\\' :: 'r' :: (renderBodyWith renderChar s' ++ '"' :: rest) from rfl]
      rw [psb_esc _ _ (by decide)]
      rw [show escChar 'r' = some '\r' from rfl]
      rw [ih rest hoks]
      rfl
    by_cases hc5 : c = '\t'
    · subst hc5
      rw [show renderChar '\t' = ['\\', 't'] from rfl]
      rw [show (['\\', 't'] : Str) ++ (renderBodyWith renderChar s' ++ '"' :: rest) =
        '\\' :: 't' :: (renderBodyWith renderChar s' ++ '"' :: rest) from rfl]
      rw [psb_esc _ _ (by decide)]
      rw [show escChar 't' = some '\t' from rfl]
      rw [ih rest hoks]
      rfl
    · have hpr := okChar_printable hokc hc3 hc4 hc5
      rw [show renderChar c = [c] by
        unfold renderChar
        rw [if_neg hc1, if_neg hc2, if_neg hc3, if_neg hc4, if_neg hc5, if_neg hpr]]
      rw [show ([c] : Str) ++ (renderBodyWith renderChar s' ++ '"' :: rest) =
        c :: (renderBodyWith renderChar s' ++ '"' :: rest) from rfl]
      rw [psb_plain c _ hc1 hc2 hpr]
      rw [ih rest hoks]
      rfl

/-!  ### Step equations for the value parser -/

theorem skipJWS_cons {c : Char} (cs : Str) (h : jsonWS c = false) :
    skipJWS (c :: cs) = c :: cs := by
  unfold skipJWS
  rw [List.dropWhile_cons, if_neg (by simp [h])]

theorem digit_facts {c : Char} (h : pyIsDigit c = true) :
    jsonWS c = false ∧ ¬ c = '"' ∧ ¬ c = lbrace ∧ ¬ c = '[' ∧ ¬ c = 't' ∧
      ¬ c = 'f' ∧ ¬ c = 'n' ∧ ¬ c = '-' ∧ ¬ c = ']' ∧ ¬ c = rbrace ∧ ¬ c = ',' := by
  unfold pyIsDigit at h
  simp only [Bool.and_eq_true, decide_eq_true_eq] at h
  refine ⟨?_, ?_, ?_, ?_, ?_, ?_, ?_, ?_, ?_, ?_, ?_⟩
  · refine Bool.eq_false_iff.2 (fun hs => ?_)
    unfold jsonWS at hs
    simp only [Bool.or_eq_true, beq_iff_eq] at hs
    rcases hs with ((rfl | rfl) | rfl) | rfl <;> revert h <;> decide
  all_goals rintro rfl <;> revert h <;> decide

theorem pv_null (f : ℕ) (s : Str) :
    parseVal (Nat.succ f) ('n' :: 'u' :: 'l' :: 'l' :: s) = some (Json.null, s) := by
  simp only [parseVal]
  rw [skipJWS_cons _ (by decide)]
  simp [lbrace]

theorem pv_true (f : ℕ) (s : Str) :
    parseVal (Nat.succ f) ('t' :: 'r' :: 'u' :: 'e' :: s) = some (Json.bool true, s) := by
  simp only [parseVal]
  rw [skipJWS_cons _ (by decide)]
  simp [lbrace]

theorem pv_false (f : ℕ) (s : Str) :
    parseVal (Nat.succ f) ('f' :: 'a' :: 'l' :: 's' :: 'e' :: s) =
      some (Json.bool false, s) := by
  simp only [parseVal]
  rw [skipJWS_cons _ (by decide)]
  simp [lbrace]

theorem pv_str (f : ℕ) (cs : Str) :
    parseVal (Nat.succ f) ('"' :: cs) =
      (parseStrBody cs).map (fun p => (Json.str p.1, p.2)) := by
  simp only [parseVal]
  rw [skipJWS_cons _ (by decide)]
  dsimp only
  rw [if_pos rfl]

theorem pv_obj_nil (f : ℕ) (cs : Str) :
    parseVal (Nat.succ f) (lbrace :: rbrace :: cs) = some (Json.obj [], cs) := by
  simp only [parseVal]
  rw [skipJWS_cons _ (by decide)]
  dsimp only
  rw [if_neg (by decide : ¬ lbrace = '"'), if_pos rfl]
  rw [skipJWS_cons _ (by decide)]
  dsimp only
  rw [if_pos rfl]

theorem pv_obj_cons (f : ℕ) (cs : Str) :
    parseVal (Nat.succ f) (lbrace :: '"' :: cs) =
      (parseMembers f ('"' :: cs)).map (fun p => (Json.obj p.1, p.2)) := by
  simp only [parseVal]
  rw [skipJWS_cons _ (by decide)]
  dsimp only
  rw [if_neg (by decide : ¬ lbrace = '"'), if_pos rfl]
  rw [skipJWS_cons _ (by decide)]
  dsimp only
  rw [if_neg (by decide : ¬ ('"' : Char) = rbrace)]

theorem pv_arr_nil (f : ℕ) (cs : Str) :
    parseVal (Nat.succ f) ('[' :: ']' :: cs) = some (Json.arr [], cs) := by
  simp only [parseVal]
  rw [skipJWS_cons _ (by decide)]
  dsimp only
  rw [if_neg (by decide : ¬ ('[' : Char) = '"'), if_neg (by decide : ¬ ('[' : Char) = lbrace),
    if_pos rfl]
  rw [skipJWS_cons _ (by decide)]
  dsimp only
  rw [if_pos rfl]
  rfl

theorem pv_arr_cons (f : ℕ) (c : Char) (cs : Str) (hws : jsonWS c = false)
    (hne : ¬ c = ']') :
    parseVal (Nat.succ f) ('[' :: c :: cs) =
      (parseItems f (c :: cs)).map (fun p => (Json.arr p.1, p.2)) := by
  simp only [parseVal]
  rw [skipJWS_cons _ (by decide)]
  dsimp only
  rw [if_neg (by decide : ¬ ('[' : Char) = '"'), if_neg (by decide : ¬ ('[' : Char) = lbrace),
    if_pos rfl]
  rw [skipJWS_cons _ hws]
  dsimp only
  rw [if_neg hne]

theorem pv_digit (f : ℕ) (c : Char) (cs : Str) (hd : pyIsDigit c = true) :
    parseVal (Nat.succ f) (c :: cs) =
      some (Json.num (digitsToNat (c :: cs.takeWhile pyIsDigit)),
        cs.dropWhile pyIsDigit) := by
  obtain ⟨hws, h1, h2, h3, h4, h5, h6, h7, _, _, _⟩ := digit_facts hd
  simp only [parseVal]
  rw [skipJWS_cons _ hws]
  dsimp only
  rw [if_neg h1, if_neg h2, if_neg h3, if_neg h4, if_neg h5, if_neg h6, if_neg h7,
    if_pos hd]
  rw [List.takeWhile_cons, if_pos hd, List.dropWhile_cons, if_pos hd]

theorem pv_neg_num (f : ℕ) (c : Char) (cs : Str) (hd : pyIsDigit c = true) :
    parseVal (Nat.succ f) ('-' :: c :: cs) =
      some (Json.num (-(digitsToNat (c :: cs.takeWhile pyIsDigit) : ℤ)),
        cs.dropWhile pyIsDigit) := by
  simp only [parseVal]
  rw [skipJWS_cons _ (by decide)]
  dsimp only
  rw [if_neg (by decide : ¬ ('-' : Char) = '"'), if_neg (by decide : ¬ ('-' : Char) = lbrace),
    if_neg (by decide : ¬ ('-' : Char) = '['), if_neg (by decide : ¬ ('-' : Char) = 't'),
    if_neg (by decide : ¬ ('-' : Char) = 'f'), if_neg (by decide : ¬ ('-' : Char) = 'n'),
    if_pos rfl]
  rw [List.takeWhile_cons, if_pos hd, List.dropWhile_cons, if_pos hd]

/-!  ### Helpers for parser completeness -/

theorem takedrop_digits (l l2 : Str) (hall : ∀ c ∈ l, pyIsDigit c = true)
    (hrest : ∀ c, l2.head? = some c → pyIsDigit c = false) :
    (l ++ l2).takeWhile pyIsDigit = l ∧ (l ++ l2).dropWhile pyIsDigit = l2 := by
  cases l2 with
  | nil =>
    constructor
    · rw [List.append_nil, List.takeWhile_eq_self_iff]
      exact hall
    · rw [List.append_nil, List.dropWhile_eq_nil_iff]
      exact hall
  | cons y t => exact takeWhile_append_all hall y (hrest y rfl) t

theorem head_safe_items (xs : List Json) (rest : Str) :
    ∀ c, (renderItemsRest renderChar xs ++ ']' :: rest).head? = some c →
      pyIsDigit c = false := by
  cases xs with
  | nil =>
    intro c hc
    rw [show renderItemsRest renderChar ([] : List Json) ++ ']' :: rest = ']' :: rest
      from rfl] at hc
    simp only [List.head?_cons, Option.some.injEq] at hc
    subst hc
    decide
  | cons y ys =>
    intro c hc
    rw [show renderItemsRest renderChar (y :: ys) =
      ',' :: (render y ++ renderItemsRest renderChar ys) from rfl] at hc
    simp only [List.cons_append, List.head?_cons, Option.some.injEq] at hc
    subst hc
    decide

theorem head_safe_members (kvs : List (Str × Json)) (rest : Str) :
    ∀ c, (renderMembersRest renderChar kvs ++ rbrace :: rest).head? = some c →
      pyIsDigit c = false := by
  cases kvs with
  | nil =>
    intro c hc
    rw [show renderMembersRest renderChar ([] : List (Str × Json)) ++ rbrace :: rest =
      rbrace :: rest from rfl] at hc
    simp only [List.head?_cons, Option.some.injEq] at hc
    subst hc
    decide
  | cons kv kvs' =>
    intro c hc
    rw [show renderMembersRest renderChar (kv :: kvs') =
      ',' :: (renderMember renderChar kv ++ renderMembersRest renderChar kvs') from rfl] at hc
    simp only [List.cons_append, List.head?_cons, Option.some.injEq] at hc
    subst hc
    decide

theorem render_head (v : Json) :
    ∃ c t, render v = c :: t ∧ jsonWS c = false ∧ ¬ c = ']' := by
  cases v with
  | null => exact ⟨'n', "ull".toList, rfl, by decide, by decide⟩
  | bool b =>
    cases b with
    | false => exact ⟨'f', "alse".toList, rfl, by decide, by decide⟩
    | true => exact ⟨'t', "rue".toList, rfl, by decide, by decide⟩
  | num n =>
    show ∃ c t, renderInt n = c :: t ∧ _
    unfold renderInt
    by_cases hn : n < 0
    · rw [if_pos hn]
      exact ⟨'-', renderNat n.natAbs, rfl, by decide, by decide⟩
    · rw [if_neg hn]
      obtain ⟨d, ds, hcons⟩ := List.exists_cons_of_ne_nil (renderNat_ne_nil n.toNat)
      have hd : pyIsDigit d = true :=
        renderNat_digits n.toNat d (hcons ▸ List.mem_cons_self d ds)
      obtain ⟨hws, _, _, _, _, _, _, _, hne, _, _⟩ := digit_facts hd
      exact ⟨d, ds, hcons, hws, hne⟩
  | str s =>
    exact ⟨'"', renderBodyWith renderChar s ++ ['"'], rfl, by decide, by decide⟩
  | arr xs =>
    cases xs with
    | nil => exact ⟨'[', [']'], rfl, by decide, by decide⟩
    | cons x xs =>
      exact ⟨'[', render x ++ renderItemsRest renderChar xs ++ [']'], rfl,
        by decide, by decide⟩
  | obj kvs =>
    cases kvs with
    | nil => exact ⟨lbrace, [rbrace], rfl, by decide, by decide⟩
    | cons kv kvs =>
      exact ⟨lbrace, renderMember renderChar kv ++ renderMembersRest renderChar kvs ++
        [rbrace], rfl, by decide, by decide⟩

theorem pv_num_complete (f : ℕ) (n : ℤ) (rest : Str)
    (hrest : ∀ c, rest.head? = some c → pyIsDigit c = false) :
    parseVal (Nat.succ f) (render (Json.num n) ++ rest) = some (Json.num n, rest) := by
  rw [show render (Json.num n) = renderInt n from rfl]
  unfold renderInt
  by_cases hn : n < 0
  · rw [if_pos hn]
    obtain ⟨d, ds, hcons⟩ := List.exists_cons_of_ne_nil (renderNat_ne_nil n.natAbs)
    have hall : ∀ c ∈ renderNat n.natAbs, pyIsDigit c = true := renderNat_digits n.natAbs
    have hd : pyIsDigit d = true := hall d (hcons ▸ List.mem_cons_self d ds)
    have hds : ∀ c ∈ ds, pyIsDigit c = true := fun c hc => hall c (hcons ▸ List.mem_cons_of_mem d hc)
    rw [hcons]
    rw [show ('-' :: d :: ds) ++ rest = '-' :: d :: (ds ++ rest) from rfl]
    rw [pv_neg_num f d (ds ++ rest) hd]
    obtain ⟨htake, hdrop⟩ := takedrop_digits ds rest hds hrest
    rw [htake, hdrop]
    have hv : digitsToNat (d :: ds) = n.natAbs := by
      rw [← hcons]
      exact digitsToNat_renderNat n.natAbs
    rw [hv]
    have : -(n.natAbs : ℤ) = n := by omega
    rw [this]
  · rw [if_neg hn]
    obtain ⟨d, ds, hcons⟩ := List.exists_cons_of_ne_nil (renderNat_ne_nil n.toNat)
    have hall : ∀ c ∈ renderNat n.toNat, pyIsDigit c = true := renderNat_digits n.toNat
    have hd : pyIsDigit d = true := hall d (hcons ▸ List.mem_cons_self d ds)
    have hds : ∀ c ∈ ds, pyIsDigit c = true := fun c hc => hall c (hcons ▸ List.mem_cons_of_mem d hc)
    rw [hcons]
    rw [show (d :: ds) ++ rest = d :: (ds ++ rest) from rfl]
    rw [pv_digit f d (ds ++ rest) hd]
    obtain ⟨htake, hdrop⟩ := takedrop_digits ds rest hds hrest
    rw [htake, hdrop]
    have hv : digitsToNat (d :: ds) = n.toNat := by
      rw [← hcons]
      exact digitsToNat_renderNat n.toNat
    rw [hv]
    have : (n.toNat : ℤ) = n := by omega
    rw [this]

/-!  ### Parser completeness on strict renderings -/

theorem parse_complete : ∀ fuel : ℕ,
    (∀ v rest, jsonOk v = true → (render v).length < fuel →
      (∀ c, rest.head? = some c → pyIsDigit c = false) →
      parseVal fuel (render v ++ rest) = some (v, rest)) ∧
    (∀ k vv kvs rest, k.all okChar = true → jsonOk vv = true → jsonOkMembers kvs = true →
      (renderMember renderChar (k, vv)).length +
        (renderMembersRest renderChar kvs).length + 2 ≤ fuel →
      parseMembers fuel (renderMember renderChar (k, vv) ++
        renderMembersRest renderChar kvs ++ rbrace :: rest) = some ((k, vv) :: kvs, rest)) ∧
    (∀ x xs rest, jsonOk x = true → jsonOkList xs = true →
      (render x).length + (renderItemsRest renderChar xs).length + 2 ≤ fuel →
      parseItems fuel (render x ++ renderItemsRest renderChar xs ++ ']' :: rest) =
        some (x :: xs, rest)) := by
  intro fuel
  induction fuel using Nat.strong_induction_on with
  | _ fuel IH =>
  rcases fuel with _ | f
  · refine ⟨?_, ?_, ?_⟩
    · intro v rest _ hlen _
      omega
    · intro k vv kvs rest _ _ _ hlen
      omega
    · intro x xs rest _ _ hlen
      omega
  refine ⟨?_, ?_, ?_⟩
  · intro v rest hok hlen hrest
    cases v with
    | null =>
      rw [show render Json.null ++ rest = 'n' :: 'u' :: 'l' :: 'l' :: rest from rfl]
      exact pv_null f rest
    | bool b =>
      cases b with
      | false =>
        rw [show render (Json.bool false) ++ rest =
          'f' :: 'a' :: 'l' :: 's' :: 'e' :: rest from rfl]
        exact pv_false f rest
      | true =>
        rw [show render (Json.bool true) ++ rest = 't' :: 'r' :: 'u' :: 'e' :: rest from rfl]
        exact pv_true f rest
    | num n => exact pv_num_complete f n rest hrest
    | str s =>
      rw [show render (Json.str s) ++ rest =
        '"' :: (renderBodyWith renderChar s ++ '"' :: rest) by
          rw [show render (Json.str s) =
            '"' :: (renderBodyWith renderChar s ++ ['"']) from rfl]
          simp]
      rw [pv_str]
      rw [parseStrBody_complete s rest (by simpa [jsonOk] using hok)]
      rfl
    | arr xs =>
      cases xs with
      | nil =>
        rw [show render (Json.arr []) ++ rest = '[' :: ']' :: rest from rfl]
        exact pv_arr_nil f rest
      | cons x xs =>
        have hok2 : jsonOk x = true ∧ jsonOkList xs = true := by
          simpa [jsonOk, jsonOkList, Bool.and_eq_true] using hok
        obtain ⟨c, t, hcons, hws, hne⟩ := render_head x
        have hshape : render (Json.arr (x :: xs)) ++ rest =
            '[' :: c :: (t ++ (renderItemsRest renderChar xs ++ ']' :: rest)) := by
          rw [show render (Json.arr (x :: xs)) =
            '[' :: (render x ++ renderItemsRest renderChar xs ++ [']']) from rfl, hcons]
          simp
        rw [hshape]
        rw [pv_arr_cons f c _ hws hne]
        have hlen2 : (render (Json.arr (x :: xs))).length =
            (render x).length + (renderItemsRest renderChar xs).length + 2 := by
          rw [show render (Json.arr (x :: xs)) =
            '[' :: (render x ++ renderItemsRest renderChar xs ++ [']']) from rfl]
          simp [List.length_append]
          omega
        have hitems := (IH f (Nat.lt_succ_self f)).2.2 x xs rest hok2.1 hok2.2 (by omega)
        rw [show c :: (t ++ (renderItemsRest renderChar xs ++ ']' :: rest)) =
          render x ++ renderItemsRest renderChar xs ++ ']' :: rest by rw [hcons]; simp]
        rw [hitems]
        rfl
    | obj kvs =>
      cases kvs with
      | nil =>
        rw [show render (Json.obj []) ++ rest = lbrace :: rbrace :: rest from rfl]
        exact pv_obj_nil f rest
      | cons kv kvs =>
        obtain ⟨k, vv⟩ := kv
        have hok3 : k.all okChar = true ∧ jsonOk vv = true ∧ jsonOkMembers kvs = true := by
          simpa [jsonOk, jsonOkMembers, Bool.and_eq_true, and_assoc] using hok
        have hshape : render (Json.obj ((k, vv) :: kvs)) ++ rest =
            lbrace :: '"' :: ((renderBodyWith renderChar k ++ ['"'] ++ [':'] ++ render vv) ++
              (renderMembersRest renderChar kvs ++ rbrace :: rest)) := by
          rw [show render (Json.obj ((k, vv) :: kvs)) =
            lbrace :: (('"' :: (renderBodyWith renderChar k ++ ['"'] ++ [':'] ++ render vv)) ++
              renderMembersRest renderChar kvs ++ [rbrace]) from rfl]
          simp
        rw [hshape]
        rw [pv_obj_cons f _]
        have hlen3 : (render (Json.obj ((k, vv) :: kvs))).length =
            (renderMember renderChar (k, vv)).length +
              (renderMembersRest renderChar kvs).length + 2 := by
          rw [show render (Json.obj ((k, vv) :: kvs)) =
            lbrace :: (renderMember renderChar (k, vv) ++
              renderMembersRest renderChar kvs ++ [rbrace]) from rfl]
          simp [List.length_append]
          omega
        have hmembers := (IH f (Nat.lt_succ_self f)).2.1 k vv kvs rest hok3.1 hok3.2.1
          hok3.2.2 (by omega)
        rw [show ('"' : Char) :: ((renderBodyWith renderChar k ++ ['"'] ++ [':'] ++ render vv) ++
            (renderMembersRest renderChar kvs ++ rbrace :: rest)) =
          renderMember renderChar (k, vv) ++
            renderMembersRest renderChar kvs ++ rbrace :: rest by
          rw [show renderMember renderChar (k, vv) =
            '"' :: (renderBodyWith renderChar k ++ ['"'] ++ [':'] ++ render vv) from rfl]
          simp]
        rw [hmembers]
        rfl
  · intro k vv kvs rest hokk hokv hokm hfuel
    have hlm : (renderMember renderChar (k, vv)).length =
        (renderBodyWith renderChar k).length + (render vv).length + 3 := by
      rw [show renderMember renderChar (k, vv) =
        '"' :: (renderBodyWith renderChar k ++ ['"'] ++ [':'] ++ render vv) from rfl]
      simp [List.length_append]
      omega
    have hshape : renderMember renderChar (k, vv) ++
        renderMembersRest renderChar kvs ++ rbrace :: rest =
        '"' :: (renderBodyWith renderChar k ++ '"' :: (':' ::
          (render vv ++ (renderMembersRest renderChar kvs ++ rbrace :: rest)))) := by
      rw [show renderMember renderChar (k, vv) =
        '"' :: (renderBodyWith renderChar k ++ ['"'] ++ [':'] ++ render vv) from rfl]
      simp
    rw [hshape]
    simp only [parseMembers]
    rw [skipJWS_cons _ (by decide)]
    dsimp only
    rw [if_pos rfl]
    rw [parseStrBody_complete k _ hokk]
    dsimp only
    rw [skipJWS_cons _ (by decide)]
    dsimp only
    rw [if_pos rfl]
    have hval := (IH f (Nat.lt_succ_self f)).1 vv
      (renderMembersRest renderChar kvs ++ rbrace :: rest) hokv (by omega)
      (head_safe_members kvs rest)
    rw [hval]
    dsimp only
    cases kvs with
    | nil =>
      rw [show renderMembersRest renderChar ([] : List (Str × Json)) ++ rbrace :: rest =
        rbrace :: rest from rfl]
      rw [skipJWS_cons _ (by decide)]
      dsimp only
      rw [if_neg (by decide : ¬ rbrace = ','), if_pos rfl]
    | cons kv' kvs' =>
      obtain ⟨k', vv'⟩ := kv'
      have hlmr : (renderMembersRest renderChar ((k', vv') :: kvs')).length =
          (renderMember renderChar (k', vv')).length +
            (renderMembersRest renderChar kvs').length + 1 := by
        rw [show renderMembersRest renderChar ((k', vv') :: kvs') =
          ',' :: (renderMember renderChar (k', vv') ++
            renderMembersRest renderChar kvs') from rfl]
        simp [List.length_append]
      have hmr : renderMembersRest renderChar ((k', vv') :: kvs') ++ rbrace :: rest =
          ',' :: (renderMember renderChar (k', vv') ++
            renderMembersRest renderChar kvs' ++ rbrace :: rest) := by
        rw [show renderMembersRest renderChar ((k', vv') :: kvs') =
          ',' :: (renderMember renderChar (k', vv') ++
            renderMembersRest renderChar kvs') from rfl]
        simp
      rw [hmr]
      rw [skipJWS_cons _ (by decide)]
      dsimp only
      rw [if_pos rfl]
      have hokm2 : k'.all okChar = true ∧ jsonOk vv' = true ∧ jsonOkMembers kvs' = true := by
        simpa [jsonOkMembers, Bool.and_eq_true, and_assoc] using hokm
      rw [(IH f (Nat.lt_succ_self f)).2.1 k' vv' kvs' rest hokm2.1 hokm2.2.1 hokm2.2.2
        (by omega)]
      rfl
  · intro x xs rest hokx hokxs hfuel
    simp only [parseItems]
    rw [List.append_assoc]
    rw [(IH f (Nat.lt_succ_self f)).1 x (renderItemsRest renderChar xs ++ ']' :: rest)
      hokx (by omega) (head_safe_items xs rest)]
    dsimp only
    cases xs with
    | nil =>
      rw [show renderItemsRest renderChar ([] : List Json) ++ ']' :: rest = ']' :: rest
        from rfl]
      rw [skipJWS_cons _ (by decide)]
      dsimp only
      rw [if_neg (by decide : ¬ (']' : Char) = ','), if_pos rfl]
    | cons y ys =>
      have hlir : (renderItemsRest renderChar (y :: ys)).length =
          (render y).length + (renderItemsRest renderChar ys).length + 1 := by
        rw [show renderItemsRest renderChar (y :: ys) =
          ',' :: (render y ++ renderItemsRest renderChar ys) from rfl]
        simp [List.length_append]
      have hir : renderItemsRest renderChar (y :: ys) ++ ']' :: rest =
          ',' :: (render y ++ renderItemsRest renderChar ys ++ ']' :: rest) := by
        rw [show renderItemsRest renderChar (y :: ys) =
          ',' :: (render y ++ renderItemsRest renderChar ys) from rfl]
        simp
      rw [hir]
      rw [skipJWS_cons _ (by decide)]
      dsimp only
      rw [if_pos rfl]
      have hok4 : jsonOk y = true ∧ jsonOkList ys = true := by
        simpa [jsonOkList, Bool.and_eq_true] using hokxs
      rw [(IH f (Nat.lt_succ_self f)).2.2 y ys rest hok4.1 hok4.2 (by omega)]
      rfl

theorem jsonLoads_render (v : Json) (hok : jsonOk v = true) :
    jsonLoads (render v) = some v := by
  unfold jsonLoads
  have h := (parse_complete ((render v).length + 1)).1 v [] hok (by omega) (by simp)
  rw [List.append_nil] at h
  rw [h]
  dsimp only
  rw [if_pos (by rfl : skipJWS [] = [])]

/-!  ### The repair scan -/

theorem rg_end (raw : Str) (idx : ℕ) (b : Bool) (h : raw.length ≤ idx) :
    repairGo raw idx b = [] := by
  rw [repairGo, dif_pos h]

theorem getD_at (pre : Str) (x : Char) (t : Str) :
    (pre ++ x :: t).getD pre.length ' ' = x := by
  rw [List.getD_eq_getElem?_getD]
  rw [List.getElem?_append_right (Nat.le_refl pre.length)]
  simp

theorem isEscaped_append (pre l : Str) (h : evenRun pre = true) :
    isEscaped (pre ++ l) pre.length = false := by
  unfold isEscaped
  rw [List.take_left]
  unfold evenRun at h
  simp only [decide_eq_true_eq] at h
  simp only [decide_eq_false_iff_not]
  omega

theorem evenRun_nil : evenRun [] = true := by decide

theorem evenRun_snoc {pre : Str} (c : Char) (hc : ¬ c = '\\') :
    evenRun (pre ++ [c]) = true := by
  unfold evenRun
  rw [List.reverse_append]
  rw [show ([c] : Str).reverse = [c] from rfl]
  rw [show ([c] : Str) ++ pre.reverse = c :: pre.reverse from rfl]
  rw [List.takeWhile_cons, if_neg (by simp [hc])]
  simp

theorem evenRun_esc_pair {pre : Str} (z : Char) (hz : ¬ z = '\\') :
    evenRun (pre ++ ['\\', z]) = true := by
  rw [show pre ++ ['\\', z] = (pre ++ ['\\']) ++ [z] by simp]
  exact evenRun_snoc z hz

theorem evenRun_slash2 {pre : Str} (h : evenRun pre = true) :
    evenRun (pre ++ ['\\', '\\']) = true := by
  unfold evenRun at h ⊢
  rw [List.reverse_append]
  rw [show (['\\', '\\'] : Str).reverse = ['\\', '\\'] from rfl]
  rw [show (['\\', '\\'] : Str) ++ pre.reverse = '\\' :: '\\' :: pre.reverse from rfl]
  rw [List.takeWhile_cons, if_pos (by simp), List.takeWhile_cons, if_pos (by simp)]
  simp only [List.length_cons, decide_eq_true_eq] at h ⊢
  omega

theorem rg_quote (raw pre t : Str) (b : Bool) (hpre : evenRun pre = true)
    (hr : raw = pre ++ '"' :: t) :
    repairGo raw pre.length b = '"' :: repairGo raw (pre.length + 1) (!b) := by
  subst hr
  rw [repairGo, dif_neg (by simp [List.length_append])]
  dsimp only
  rw [getD_at]
  rw [if_pos ⟨rfl, by rw [isEscaped_append pre _ hpre]; simp⟩]

theorem rg_out_plain (raw pre t : Str) (c : Char) (hc : ¬ c = '"')
    (hr : raw = pre ++ c :: t) :
    repairGo raw pre.length false = c :: repairGo raw (pre.length + 1) false := by
  subst hr
  rw [repairGo, dif_neg (by simp [List.length_append])]
  dsimp only
  rw [getD_at]
  rw [if_neg (fun h => hc h.1)]
  rw [if_neg (by simp)]

theorem rg_in_nl (raw pre t : Str) (hr : raw = pre ++ '\n' :: t) :
    repairGo raw pre.length true = '\\' :: 'n' :: repairGo raw (pre.length + 1) true := by
  subst hr
  rw [repairGo, dif_neg (by simp [List.length_append])]
  dsimp only
  rw [getD_at]
  rw [if_neg (fun h => absurd h.1 (by decide))]
  rw [if_pos rfl, if_pos rfl]

theorem rg_in_esc (raw pre t : Str) (z : Char) (hz : z ∈ "\"\\/bfnrtu".toList)
    (hr : raw = pre ++ '\\' :: z :: t) :
    repairGo raw pre.length true = '\\' :: z :: repairGo raw (pre.length + 2) true := by
  subst hr
  rw [repairGo, dif_neg (by simp [List.length_append])]
  dsimp only
  rw [getD_at]
  rw [if_neg (fun h => absurd h.1 (by decide))]
  rw [if_pos rfl]
  rw [if_neg (by decide : ¬ ('\\' : Char) = '\n'), if_neg (by decide : ¬ ('\\' : Char) = '\r'),
    if_pos rfl]
  rw [dif_pos (by simp [List.length_append])]
  have hnxt : (pre ++ '\\' :: z :: t).getD (pre.length + 1) ' ' = z := by
    rw [show pre ++ '\\' :: z :: t = (pre ++ ['\\']) ++ z :: t by simp]
    rw [show pre.length + 1 = (pre ++ ['\\']).length by simp]
    exact getD_at _ z t
  rw [hnxt]
  rw [if_pos hz]

theorem rg_in_plain (raw pre t : Str) (c : Char) (h1 : ¬ c = '"') (h2 : ¬ c = '\n')
    (h3 : ¬ c = '\r') (h4 : ¬ c = '\\') (hr : raw = pre ++ c :: t) :
    repairGo raw pre.length true = c :: repairGo raw (pre.length + 1) true := by
  subst hr
  rw [repairGo, dif_neg (by simp [List.length_append])]
  dsimp only
  rw [getD_at]
  rw [if_neg (fun h => h1 h.1)]
  rw [if_pos rfl, if_neg h2, if_neg h3, if_neg h4]

theorem hexDigitChar_ne_slash (n : ℕ) (hn : n < 16) : ¬ hexDigitChar n = '\\' := by
  interval_cases n <;> decide

theorem evenRun_chunk (pre : Str) (c : Char) (h : evenRun pre = true) :
    evenRun (pre ++ renderLenientChar c) = true := by
  unfold renderLenientChar
  by_cases hc1 : c = '\n'
  · rw [if_pos hc1]
    exact evenRun_snoc '\n' (by decide)
  rw [if_neg hc1]
  unfold renderChar
  by_cases hc2 : c = '"'
  · rw [if_pos hc2]
    exact evenRun_esc_pair '"' (by decide)
  rw [if_neg hc2]
  by_cases hc3 : c = '\\'
  · rw [if_pos hc3]
    exact evenRun_slash2 h
  rw [if_neg hc3, if_neg hc1]
  by_cases hc4 : c = '\r'
  · rw [if_pos hc4]
    exact evenRun_esc_pair 'r' (by decide)
  rw [if_neg hc4]
  by_cases hc5 : c = '\t'
  · rw [if_pos hc5]
    exact evenRun_esc_pair 't' (by decide)
  rw [if_neg hc5]
  by_cases hc6 : c.toNat < 32
  · rw [if_pos hc6]
    rw [show pre ++ ['\\', 'u', '0', '0', hexDigitChar (c.toNat / 16),
        hexDigitChar (c.toNat % 16)] =
      (pre ++ ['\\', 'u', '0', '0', hexDigitChar (c.toNat / 16)]) ++
        [hexDigitChar (c.toNat % 16)] by simp]
    exact evenRun_snoc _ (hexDigitChar_ne_slash _ (Nat.mod_lt _ (by omega)))
  · rw [if_neg hc6]
    exact evenRun_snoc c hc3

theorem evenRun_body : ∀ s pre, evenRun pre = true →
    evenRun (pre ++ renderBodyWith renderLenientChar s) = true := by
  intro s
  induction s with
  | nil =>
    intro pre h
    rw [renderBody_nil, List.append_nil]
    exact h
  | cons c s' ih =>
    intro pre h
    rw [renderBody_cons, show pre ++ (renderLenientChar c ++
      renderBodyWith renderLenientChar s') =
      (pre ++ renderLenientChar c) ++ renderBodyWith renderLenientChar s' by simp]
    exact ih _ (evenRun_chunk pre c h)

theorem rg_index_congr (raw : Str) (b : Bool) {A B : ℕ} (h : A = B) :
    repairGo raw A b = repairGo raw B b := by
  rw [h]

theorem scanBody : ∀ s raw pre t, s.all okChar = true → evenRun pre = true →
    raw = pre ++ renderBodyWith renderLenientChar s ++ t →
    repairGo raw pre.length true =
      renderBodyWith renderChar s ++
        repairGo raw (pre.length + (renderBodyWith renderLenientChar s).length) true := by
  intro s
  induction s with
  | nil =>
    intro raw pre t _ _ _
    rw [renderBody_nil, show renderBodyWith renderLenientChar [] = [] from rfl]
    simp
  | cons c s' ih =>
    intro raw pre t hok hpre hr
    have hokc : okChar c = true := by
      simp only [List.all_cons, Bool.and_eq_true] at hok
      exact hok.1
    have hoks : s'.all okChar = true := by
      simp only [List.all_cons, Bool.and_eq_true] at hok
      exact hok.2
    rw [renderBody_cons] at hr
    by_cases hc1 : c = '\n'
    · subst hc1
      rw [show renderLenientChar '\n' = ['\n'] from rfl] at hr
      have hstep := rg_in_nl raw pre (renderBodyWith renderLenientChar s' ++ t)
        (by rw [hr]; simp)
      have hih := ih raw (pre ++ ['\n']) t hoks (evenRun_snoc '\n' (by decide))
        (by rw [hr]; simp)
      rw [show (pre ++ ['\n']).length = pre.length + 1 by simp] at hih
      rw [hstep, hih]
      rw [renderBody_cons, renderBody_cons]
      rw [show renderLenientChar '\n' = ['\n'] from rfl,
        show renderChar '\n' = ['\\', 'n'] from rfl]
      simp [Nat.add_assoc]
      try exact rg_index_congr raw true (by omega)
    by_cases hc2 : c = '"'
    · subst hc2
      rw [show renderLenientChar '"' = ['\\', '"'] from rfl] at hr
      have hstep := rg_in_esc raw pre (renderBodyWith renderLenientChar s' ++ t) '"'
        (by decide) (by rw [hr]; simp)
      have hih := ih raw (pre ++ ['\\', '"']) t hoks (evenRun_esc_pair '"' (by decide))
        (by rw [hr]; simp)
      rw [show (pre ++ ['\\', '"']).length = pre.length + 2 by simp] at hih
      rw [hstep, hih]
      rw [renderBody_cons, renderBody_cons]
      rw [show renderLenientChar '"' = ['\\', '"'] from rfl,
        show renderChar '"' = ['\\', '"'] from rfl]
      simp [Nat.add_assoc]
      try exact rg_index_congr raw true (by omega)
    by_cases hc3 : c = '\\'
    · subst hc3
      rw [show renderLenientChar '\\' = ['\\', '\\'] from rfl] at hr
      have hstep := rg_in_esc raw pre (renderBodyWith renderLenientChar s' ++ t) '\\'
        (by decide) (by rw [hr]; simp)
      have hih := ih raw (pre ++ ['\\', '\\']) t hoks (evenRun_slash2 hpre)
        (by rw [hr]; simp)
      rw [show (pre ++ ['\\', '\\']).length = pre.length + 2 by simp] at hih
      rw [hstep, hih]
      rw [renderBody_cons, renderBody_cons]
      rw [show renderLenientChar '\\' = ['\\', '\\'] from rfl,
        show renderChar '\\' = ['\\', '\\'] from rfl]
      simp [Nat.add_assoc]
      try exact rg_index_congr raw true (by omega)
    by_cases hc4 : c = '\r'
    · subst hc4
      rw [show renderLenientChar '\r' = ['\\', 'r'] from rfl] at hr
      have hstep := rg_in_esc raw pre (renderBodyWith renderLenientChar s' ++ t) 'r'
        (by decide) (by rw [hr]; simp)
      have hih := ih raw (pre ++ ['\\', 'r']) t hoks (evenRun_esc_pair 'r' (by decide))
        (by rw [hr]; simp)
      rw [show (pre ++ ['\\', 'r']).length = pre.length + 2 by simp] at hih
      rw [hstep, hih]
      rw [renderBody_cons, renderBody_cons]
      rw [show renderLenientChar '\r' = ['\\', 'r'] from rfl,
        show renderChar '\r' = ['\\', 'r'] from rfl]
      simp [Nat.add_assoc]
      try exact rg_index_congr raw true (by omega)
    by_cases hc5 : c = '\t'
    · subst hc5
      rw [show renderLenientChar '\t' = ['\\', 't'] from rfl] at hr
      have hstep := rg_in_esc raw pre (renderBodyWith renderLenientChar s' ++ t) 't'
        (by decide) (by rw [hr]; simp)
      have hih := ih raw (pre ++ ['\\', 't']) t hoks (evenRun_esc_pair 't' (by decide))
        (by rw [hr]; simp)
      rw [show (pre ++ ['\\', 't']).length = pre.length + 2 by simp] at hih
      rw [hstep, hih]
      rw [renderBody_cons, renderBody_cons]
      rw [show renderLenientChar '\t' = ['\\', 't'] from rfl,
        show renderChar '\t' = ['\\', 't'] from rfl]
      simp [Nat.add_assoc]
      try exact rg_index_congr raw true (by omega)
    · have hch : renderLenientChar c = [c] := by
        unfold renderLenientChar renderChar
        rw [if_neg hc1, if_neg hc2, if_neg hc3, if_neg hc1, if_neg hc4, if_neg hc5,
          if_neg (okChar_printable hokc hc1 hc4 hc5)]
      rw [hch] at hr
      have hstep := rg_in_plain raw pre (renderBodyWith renderLenientChar s' ++ t) c
        hc2 hc1 hc4 hc3 (by rw [hr]; simp)
      have hih := ih raw (pre ++ [c]) t hoks (evenRun_snoc c hc3)
        (by rw [hr]; simp)
      rw [show (pre ++ [c]).length = pre.length + 1 by simp] at hih
      rw [hstep, hih]
      rw [renderBody_cons, renderBody_cons, hch]
      rw [show renderChar c = [c] by
        unfold renderChar
        rw [if_neg hc2, if_neg hc3, if_neg hc1, if_neg hc4, if_neg hc5,
          if_neg (okChar_printable hokc hc1 hc4 hc5)]]
      simp [Nat.add_assoc]
      try exact rg_index_congr raw true (by omega)

theorem digit_ne_slash {c : Char} (h : pyIsDigit c = true) : ¬ c = '\\' := by
  rintro rfl
  revert h
  decide

theorem renderNat_last (m : ℕ) :
    ∃ u z, renderNat m = u ++ [z] ∧ pyIsDigit z = true := by
  have hne := renderNat_ne_nil m
  refine ⟨(renderNat m).dropLast, (renderNat m).getLast hne, ?_, ?_⟩
  · exact (List.dropLast_append_getLast hne).symm
  · exact renderNat_digits m _ (List.getLast_mem hne)

theorem lenient_last_ne_slash (v : Json) :
    ∃ u z, renderWith renderLenientChar v = u ++ [z] ∧ ¬ z = '\\' := by
  cases v with
  | null => exact ⟨"nul".toList, 'l', rfl, by decide⟩
  | bool b =>
    cases b with
    | false => exact ⟨"fals".toList, 'e', rfl, by decide⟩
    | true => exact ⟨"tru".toList, 'e', rfl, by decide⟩
  | num n =>
    show ∃ u z, renderInt n = u ++ [z] ∧ _
    unfold renderInt
    by_cases hn : n < 0
    · rw [if_pos hn]
      obtain ⟨u, z, hu, hz⟩ := renderNat_last n.natAbs
      exact ⟨'-' :: u, z, by rw [hu]; simp, digit_ne_slash hz⟩
    · rw [if_neg hn]
      obtain ⟨u, z, hu, hz⟩ := renderNat_last n.toNat
      exact ⟨u, z, hu, digit_ne_slash hz⟩
  | str s =>
    refine ⟨'"' :: renderBodyWith renderLenientChar s, '"', ?_, by decide⟩
    rw [show renderWith renderLenientChar (Json.str s) =
      '"' :: (renderBodyWith renderLenientChar s ++ ['"']) from rfl]
    simp
  | arr xs =>
    cases xs with
    | nil => exact ⟨['['], ']', rfl, by decide⟩
    | cons x xs =>
      refine ⟨'[' :: (renderWith renderLenientChar x ++ renderItemsRest renderLenientChar xs),
        ']', ?_, by decide⟩
      rw [show renderWith renderLenientChar (Json.arr (x :: xs)) =
        '[' :: (renderWith renderLenientChar x ++ renderItemsRest renderLenientChar xs ++
          [']']) from rfl]
      simp
  | obj kvs =>
    cases kvs with
    | nil => exact ⟨[lbrace], rbrace, rfl, by decide⟩
    | cons kv kvs =>
      refine ⟨lbrace :: (renderMember renderLenientChar kv ++
        renderMembersRest renderLenientChar kvs), rbrace, ?_, by decide⟩
      rw [show renderWith renderLenientChar (Json.obj (kv :: kvs)) =
        lbrace :: (renderMember renderLenientChar kv ++
          renderMembersRest renderLenientChar kvs ++ [rbrace]) from rfl]
      simp

theorem evenRun_after_val (pre : Str) (v : Json) :
    evenRun (pre ++ renderWith renderLenientChar v) = true := by
  obtain ⟨u, z, hu, hz⟩ := lenient_last_ne_slash v
  rw [hu, show pre ++ (u ++ [z]) = (pre ++ u) ++ [z] by simp]
  exact evenRun_snoc z hz

theorem lenient_ne_nil (v : Json) : (renderWith renderLenientChar v).length ≥ 1 := by
  obtain ⟨u, z, hu, _⟩ := lenient_last_ne_slash v
  rw [hu]
  simp

theorem rg_copy_out : ∀ (u : Str) raw pre t,
    (∀ c ∈ u, ¬ c = '"' ∧ ¬ c = '\\') → evenRun pre = true → raw = pre ++ u ++ t →
    repairGo raw pre.length false = u ++ repairGo raw (pre.length + u.length) false ∧
    evenRun (pre ++ u) = true := by
  intro u
  induction u with
  | nil =>
    intro raw pre t _ hpre _
    constructor
    · simp
    · simpa using hpre
  | cons c u' ih =>
    intro raw pre t hall hpre hr
    have hc := hall c (List.mem_cons_self c u')
    have hstep := rg_out_plain raw pre (u' ++ t) c hc.1 (by rw [hr]; simp)
    have hpre2 : evenRun (pre ++ [c]) = true := evenRun_snoc c hc.2
    have hih := ih raw (pre ++ [c]) t (fun d hd => hall d (List.mem_cons_of_mem c hd))
      hpre2 (by rw [hr]; simp)
    rw [show (pre ++ [c]).length = pre.length + 1 by simp] at hih
    constructor
    · rw [hstep, hih.1]
      simp [Nat.add_assoc]
      try exact rg_index_congr raw false (by omega)
    · rw [show pre ++ c :: u' = (pre ++ [c]) ++ u' by simp]
      exact hih.2

theorem renderInt_no_quote_slash (n : ℤ) :
    ∀ c ∈ renderInt n, ¬ c = '"' ∧ ¬ c = '\\' := by
  unfold renderInt
  by_cases hn : n < 0
  · rw [if_pos hn]
    intro c hc
    rcases List.mem_cons.1 hc with rfl | hm
    · exact ⟨by decide, by decide⟩
    · have hd := renderNat_digits n.natAbs c hm
      exact ⟨(digit_facts hd).2.1, digit_ne_slash hd⟩
  · rw [if_neg hn]
    intro c hc
    have hd := renderNat_digits n.toNat c hc
    exact ⟨(digit_facts hd).2.1, digit_ne_slash hd⟩

/-!  ### The full repair scan over a lenient rendering -/

theorem scanAll : ∀ N : ℕ,
    (∀ v raw pre t, (renderWith renderLenientChar v).length ≤ N → jsonOk v = true →
      evenRun pre = true → raw = pre ++ renderWith renderLenientChar v ++ t →
      repairGo raw pre.length false =
        renderWith renderChar v ++
          repairGo raw (pre.length + (renderWith renderLenientChar v).length) false) ∧
    (∀ x xs raw pre t,
      (renderWith renderLenientChar x).length +
        (renderItemsRest renderLenientChar xs).length < N →
      jsonOk x = true → jsonOkList xs = true → evenRun pre = true →
      raw = pre ++ (renderWith renderLenientChar x ++
        renderItemsRest renderLenientChar xs) ++ t →
      repairGo raw pre.length false =
        (renderWith renderChar x ++ renderItemsRest renderChar xs) ++
          repairGo raw (pre.length + ((renderWith renderLenientChar x).length +
            (renderItemsRest renderLenientChar xs).length)) false) ∧
    (∀ k vv kvs raw pre t,
      (renderMember renderLenientChar (k, vv)).length +
        (renderMembersRest renderLenientChar kvs).length < N →
      k.all okChar = true → jsonOk vv = true → jsonOkMembers kvs = true →
      evenRun pre = true →
      raw = pre ++ (renderMember renderLenientChar (k, vv) ++
        renderMembersRest renderLenientChar kvs) ++ t →
      repairGo raw pre.length false =
        (renderMember renderChar (k, vv) ++ renderMembersRest renderChar kvs) ++
          repairGo raw (pre.length + ((renderMember renderLenientChar (k, vv)).length +
            (renderMembersRest renderLenientChar kvs).length)) false) := by
  intro N
  induction N using Nat.strong_induction_on with
  | _ N IH =>
  refine ⟨?_, ?_, ?_⟩
  · intro v raw pre t hlen hok hpre hr
    cases v with
    | null =>
      have h := rg_copy_out "null".toList raw pre t (by decide) hpre (by rw [hr]; rfl)
      exact h.1
    | bool b =>
      cases b with
      | false =>
        have h := rg_copy_out "false".toList raw pre t (by decide) hpre (by rw [hr]; rfl)
        exact h.1
      | true =>
        have h := rg_copy_out "true".toList raw pre t (by decide) hpre (by rw [hr]; rfl)
        exact h.1
    | num n =>
      have h := rg_copy_out (renderInt n) raw pre t (renderInt_no_quote_slash n) hpre
        (by rw [hr]; rfl)
      exact h.1
    | str s =>
      have hok' : s.all okChar = true := by simpa [jsonOk] using hok
      have h1 := rg_quote raw pre (renderBodyWith renderLenientChar s ++ '"' :: t) false hpre
        (by rw [hr, show renderWith renderLenientChar (Json.str s) =
          '"' :: (renderBodyWith renderLenientChar s ++ ['"']) from rfl]; simp)
      have h2 := scanBody s raw (pre ++ ['"']) ('"' :: t) hok'
        (evenRun_snoc '"' (by decide)) (by rw [hr, show renderWith renderLenientChar (Json.str s) =
          '"' :: (renderBodyWith renderLenientChar s ++ ['"']) from rfl]; simp)
      simp only [Bool.not_false] at h1
      rw [show (pre ++ ['"']).length = pre.length + 1 by simp] at h2
      have h3 := rg_quote raw ((pre ++ ['"']) ++ renderBodyWith renderLenientChar s) t true
        (evenRun_body s (pre ++ ['"']) (evenRun_snoc '"' (by decide)))
        (by rw [hr, show renderWith renderLenientChar (Json.str s) =
          '"' :: (renderBodyWith renderLenientChar s ++ ['"']) from rfl]; simp)
      rw [show ((pre ++ ['"']) ++ renderBodyWith renderLenientChar s).length =
        pre.length + 1 + (renderBodyWith renderLenientChar s).length by
          simp [List.length_append]; try omega] at h3
      simp only [Bool.not_true] at h3
      have hlenv : (renderWith renderLenientChar (Json.str s)).length =
          (renderBodyWith renderLenientChar s).length + 2 := by
        rw [show renderWith renderLenientChar (Json.str s) =
          '"' :: (renderBodyWith renderLenientChar s ++ ['"']) from rfl]
        simp
      rw [h1, h2, h3, hlenv]
      rw [show renderWith renderChar (Json.str s) =
        '"' :: (renderBodyWith renderChar s ++ ['"']) from rfl]
      simp [Nat.add_assoc]
      try exact rg_index_congr raw false (by omega)
    | arr xs =>
      cases xs with
      | nil =>
        have h := rg_copy_out "[]".toList raw pre t (by decide) hpre (by rw [hr]; rfl)
        exact h.1
      | cons x xs =>
        have hok2 : jsonOk x = true ∧ jsonOkList xs = true := by
          simpa [jsonOk, jsonOkList, Bool.and_eq_true] using hok
        have hlenv : (renderWith renderLenientChar (Json.arr (x :: xs))).length =
            (renderWith renderLenientChar x).length +
              (renderItemsRest renderLenientChar xs).length + 2 := by
          rw [show renderWith renderLenientChar (Json.arr (x :: xs)) =
            '[' :: (renderWith renderLenientChar x ++
              renderItemsRest renderLenientChar xs ++ [']']) from rfl]
          simp [List.length_append]
          try omega
        have h1 := rg_out_plain raw pre ((renderWith renderLenientChar x ++
          renderItemsRest renderLenientChar xs) ++ ']' :: t) '[' (by decide)
          (by rw [hr, show renderWith renderLenientChar (Json.arr (x :: xs)) =
            '[' :: (renderWith renderLenientChar x ++
              renderItemsRest renderLenientChar xs ++ [']']) from rfl]; simp)
        have h2 := (IH (N - 1) (by omega)).2.1 x xs raw (pre ++ ['[']) (']' :: t)
          (by omega) hok2.1 hok2.2 (evenRun_snoc '[' (by decide))
          (by rw [hr, show renderWith renderLenientChar (Json.arr (x :: xs)) =
            '[' :: (renderWith renderLenientChar x ++
              renderItemsRest renderLenientChar xs ++ [']']) from rfl]; simp)
        rw [show (pre ++ ['[']).length = pre.length + 1 by simp] at h2
        have h3 := rg_out_plain raw ((pre ++ ['[']) ++ (renderWith renderLenientChar x ++
          renderItemsRest renderLenientChar xs)) t ']' (by decide)
          (by rw [hr, show renderWith renderLenientChar (Json.arr (x :: xs)) =
            '[' :: (renderWith renderLenientChar x ++
              renderItemsRest renderLenientChar xs ++ [']']) from rfl]; simp)
        rw [show ((pre ++ ['[']) ++ (renderWith renderLenientChar x ++
          renderItemsRest renderLenientChar xs)).length =
          pre.length + 1 + ((renderWith renderLenientChar x).length +
            (renderItemsRest renderLenientChar xs).length) by
          simp [List.length_append]; try omega] at h3
        rw [h1, h2, h3, hlenv]
        rw [show renderWith renderChar (Json.arr (x :: xs)) =
          '[' :: (renderWith renderChar x ++ renderItemsRest renderChar xs ++ [']'])
          from rfl]
        simp [Nat.add_assoc]
        try exact rg_index_congr raw false (by omega)
    | obj kvs =>
      cases kvs with
      | nil =>
        have h := rg_copy_out [lbrace, rbrace] raw pre t (by decide) hpre (by rw [hr]; rfl)
        exact h.1
      | cons kv kvs =>
        obtain ⟨k, vv⟩ := kv
        have hok3 : k.all okChar = true ∧ jsonOk vv = true ∧ jsonOkMembers kvs = true := by
          simpa [jsonOk, jsonOkMembers, Bool.and_eq_true, and_assoc] using hok
        have hlenv : (renderWith renderLenientChar (Json.obj ((k, vv) :: kvs))).length =
            (renderMember renderLenientChar (k, vv)).length +
              (renderMembersRest renderLenientChar kvs).length + 2 := by
          rw [show renderWith renderLenientChar (Json.obj ((k, vv) :: kvs)) =
            lbrace :: (renderMember renderLenientChar (k, vv) ++
              renderMembersRest renderLenientChar kvs ++ [rbrace]) from rfl]
          simp [List.length_append]
          try omega
        have h1 := rg_out_plain raw pre ((renderMember renderLenientChar (k, vv) ++
          renderMembersRest renderLenientChar kvs) ++ rbrace :: t) lbrace (by decide)
          (by rw [hr, show renderWith renderLenientChar (Json.obj ((k, vv) :: kvs)) =
            lbrace :: (renderMember renderLenientChar (k, vv) ++
              renderMembersRest renderLenientChar kvs ++ [rbrace]) from rfl]; simp)
        have h2 := (IH (N - 1) (by omega)).2.2 k vv kvs raw (pre ++ [lbrace]) (rbrace :: t)
          (by omega) hok3.1 hok3.2.1 hok3.2.2 (evenRun_snoc lbrace (by decide))
          (by rw [hr, show renderWith renderLenientChar (Json.obj ((k, vv) :: kvs)) =
            lbrace :: (renderMember renderLenientChar (k, vv) ++
              renderMembersRest renderLenientChar kvs ++ [rbrace]) from rfl]; simp)
        rw [show (pre ++ [lbrace]).length = pre.length + 1 by simp] at h2
        have h3 := rg_out_plain raw ((pre ++ [lbrace]) ++
          (renderMember renderLenientChar (k, vv) ++
            renderMembersRest renderLenientChar kvs)) t rbrace (by decide)
          (by rw [hr, show renderWith renderLenientChar (Json.obj ((k, vv) :: kvs)) =
            lbrace :: (renderMember renderLenientChar (k, vv) ++
              renderMembersRest renderLenientChar kvs ++ [rbrace]) from rfl]; simp)
        rw [show ((pre ++ [lbrace]) ++ (renderMember renderLenientChar (k, vv) ++
          renderMembersRest renderLenientChar kvs)).length =
          pre.length + 1 + ((renderMember renderLenientChar (k, vv)).length +
            (renderMembersRest renderLenientChar kvs).length) by
          simp [List.length_append]; try omega] at h3
        rw [h1, h2, h3, hlenv]
        rw [show renderWith renderChar (Json.obj ((k, vv) :: kvs)) =
          lbrace :: (renderMember renderChar (k, vv) ++
            renderMembersRest renderChar kvs ++ [rbrace]) from rfl]
        simp [Nat.add_assoc]
        try exact rg_index_congr raw false (by omega)
  · intro x xs raw pre t hbound hokx hokxs hpre hr
    have hx1 : (renderWith renderLenientChar x).length ≥ 1 := lenient_ne_nil x
    have hx := (IH (N - 1) (by omega)).1 x raw pre
      (renderItemsRest renderLenientChar xs ++ t) (by omega) hokx hpre
      (by rw [hr]; simp)
    cases xs with
    | nil =>
      rw [show renderItemsRest renderLenientChar ([] : List Json) = [] from rfl,
        show renderItemsRest renderChar ([] : List Json) = [] from rfl]
      simp only [List.append_nil, List.length_nil, Nat.add_zero]
      exact hx
    | cons y ys =>
      have hok4 : jsonOk y = true ∧ jsonOkList ys = true := by
        simpa [jsonOkList, Bool.and_eq_true] using hokxs
      have hy1 : (renderWith renderLenientChar y).length ≥ 1 := lenient_ne_nil y
      have hlir : (renderItemsRest renderLenientChar (y :: ys)).length =
          (renderWith renderLenientChar y).length +
            (renderItemsRest renderLenientChar ys).length + 1 := by
        rw [show renderItemsRest renderLenientChar (y :: ys) =
          ',' :: (renderWith renderLenientChar y ++
            renderItemsRest renderLenientChar ys) from rfl]
        simp [List.length_append]
        try omega
      have h2 := rg_out_plain raw (pre ++ renderWith renderLenientChar x)
        ((renderWith renderLenientChar y ++ renderItemsRest renderLenientChar ys) ++ t)
        ',' (by decide)
        (by rw [hr, show renderItemsRest renderLenientChar (y :: ys) =
          ',' :: (renderWith renderLenientChar y ++
            renderItemsRest renderLenientChar ys) from rfl]; simp)
      rw [show (pre ++ renderWith renderLenientChar x).length =
        pre.length + (renderWith renderLenientChar x).length by simp] at h2
      have h3 := (IH (N - 1) (by omega)).2.1 y ys raw
        ((pre ++ renderWith renderLenientChar x) ++ [',']) t (by omega)
        hok4.1 hok4.2 (evenRun_snoc ',' (by decide))
        (by rw [hr, show renderItemsRest renderLenientChar (y :: ys) =
          ',' :: (renderWith renderLenientChar y ++
            renderItemsRest renderLenientChar ys) from rfl]; simp)
      rw [show ((pre ++ renderWith renderLenientChar x) ++ [',']).length =
        pre.length + (renderWith renderLenientChar x).length + 1 by
        simp [List.length_append]; try omega] at h3
      rw [hx, h2, h3, hlir]
      rw [show renderItemsRest renderChar (y :: ys) =
        ',' :: (renderWith renderChar y ++ renderItemsRest renderChar ys) from rfl]
      simp [Nat.add_assoc]
      try exact rg_index_congr raw false (by omega)
  · intro k vv kvs raw pre t hbound hokk hokv hokm hpre hr
    have hmemL : renderMember renderLenientChar (k, vv) =
        renderWith renderLenientChar (Json.str k) ++
          ':' :: renderWith renderLenientChar vv := by
      rw [show renderMember renderLenientChar (k, vv) =
        '"' :: (renderBodyWith renderLenientChar k ++ ['"'] ++ [':'] ++
          renderWith renderLenientChar vv) from rfl]
      rw [show renderWith renderLenientChar (Json.str k) =
        '"' :: (renderBodyWith renderLenientChar k ++ ['"']) from rfl]
      simp
    have hmemS : renderMember renderChar (k, vv) =
        renderWith renderChar (Json.str k) ++ ':' :: renderWith renderChar vv := by
      rw [show renderMember renderChar (k, vv) =
        '"' :: (renderBodyWith renderChar k ++ ['"'] ++ [':'] ++
          renderWith renderChar vv) from rfl]
      rw [show renderWith renderChar (Json.str k) =
        '"' :: (renderBodyWith renderChar k ++ ['"']) from rfl]
      simp
    have hsk1 : (renderWith renderLenientChar (Json.str k)).length ≥ 1 :=
      lenient_ne_nil (Json.str k)
    have hv1 : (renderWith renderLenientChar vv).length ≥ 1 := lenient_ne_nil vv
    have hmlen : (renderMember renderLenientChar (k, vv)).length =
        (renderWith renderLenientChar (Json.str k)).length +
          (renderWith renderLenientChar vv).length + 1 := by
      rw [hmemL]
      simp [List.length_append]
      omega
    have hk := (IH (N - 1) (by omega)).1 (Json.str k) raw pre
      (':' :: renderWith renderLenientChar vv ++
        renderMembersRest renderLenientChar kvs ++ t) (by omega)
      (by simpa [jsonOk] using hokk) hpre
      (by rw [hr, hmemL]; simp)
    have h2 := rg_out_plain raw (pre ++ renderWith renderLenientChar (Json.str k))
      (renderWith renderLenientChar vv ++ renderMembersRest renderLenientChar kvs ++ t)
      ':' (by decide) (by rw [hr, hmemL]; simp)
    rw [show (pre ++ renderWith renderLenientChar (Json.str k)).length =
      pre.length + (renderWith renderLenientChar (Json.str k)).length by simp] at h2
    have h3 := (IH (N - 1) (by omega)).1 vv raw
      ((pre ++ renderWith renderLenientChar (Json.str k)) ++ [':'])
      (renderMembersRest renderLenientChar kvs ++ t) (by omega) hokv
      (evenRun_snoc ':' (by decide))
      (by rw [hr, hmemL]; simp)
    rw [show ((pre ++ renderWith renderLenientChar (Json.str k)) ++ [':']).length =
      pre.length + (renderWith renderLenientChar (Json.str k)).length + 1 by
      simp [List.length_append]; try omega] at h3
    cases kvs with
    | nil =>
      rw [show renderMembersRest renderLenientChar ([] : List (Str × Json)) = [] from rfl]
        at hr ⊢
      rw [show renderMembersRest renderChar ([] : List (Str × Json)) = [] from rfl]
      rw [hk, h2, h3, hmemS, hmlen]
      simp [Nat.add_assoc]
      try exact rg_index_congr raw false (by omega)
    | cons kv' kvs' =>
      obtain ⟨k', vv'⟩ := kv'
      have hokm2 : k'.all okChar = true ∧ jsonOk vv' = true ∧ jsonOkMembers kvs' = true := by
        simpa [jsonOkMembers, Bool.and_eq_true, and_assoc] using hokm
      have hm1 : (renderMember renderLenientChar (k', vv')).length ≥ 1 := by
        rw [show renderMember renderLenientChar (k', vv') =
          '"' :: (renderBodyWith renderLenientChar k' ++ ['"'] ++ [':'] ++
            renderWith renderLenientChar vv') from rfl]
        simp
      have hlmr : (renderMembersRest renderLenientChar ((k', vv') :: kvs')).length =
          (renderMember renderLenientChar (k', vv')).length +
            (renderMembersRest renderLenientChar kvs').length + 1 := by
        rw [show renderMembersRest renderLenientChar ((k', vv') :: kvs') =
          ',' :: (renderMember renderLenientChar (k', vv') ++
            renderMembersRest renderLenientChar kvs') from rfl]
        simp [List.length_append]
        try omega
      have h4 := rg_out_plain raw
        (((pre ++ renderWith renderLenientChar (Json.str k)) ++ [':']) ++
          renderWith renderLenientChar vv)
        ((renderMember renderLenientChar (k', vv') ++
          renderMembersRest renderLenientChar kvs') ++ t) ',' (by decide)
        (by rw [hr, hmemL, show renderMembersRest renderLenientChar ((k', vv') :: kvs') =
          ',' :: (renderMember renderLenientChar (k', vv') ++
            renderMembersRest renderLenientChar kvs') from rfl]; simp)
      rw [show (((pre ++ renderWith renderLenientChar (Json.str k)) ++ [':']) ++
        renderWith renderLenientChar vv).length =
        pre.length + (renderWith renderLenientChar (Json.str k)).length + 1 +
          (renderWith renderLenientChar vv).length by simp [List.length_append]; try omega] at h4
      have h5 := (IH (N - 1) (by omega)).2.2 k' vv' kvs' raw
        ((((pre ++ renderWith renderLenientChar (Json.str k)) ++ [':']) ++
          renderWith renderLenientChar vv) ++ [',']) t (by omega)
        hokm2.1 hokm2.2.1 hokm2.2.2 (evenRun_snoc ',' (by decide))
        (by rw [hr, hmemL, show renderMembersRest renderLenientChar ((k', vv') :: kvs') =
          ',' :: (renderMember renderLenientChar (k', vv') ++
            renderMembersRest renderLenientChar kvs') from rfl]; simp)
      rw [show ((((pre ++ renderWith renderLenientChar (Json.str k)) ++ [':']) ++
        renderWith renderLenientChar vv) ++ [',']).length =
        pre.length + (renderWith renderLenientChar (Json.str k)).length + 1 +
          (renderWith renderLenientChar vv).length + 1 by simp [List.length_append]; try omega] at h5
      rw [hk, h2, h3, h4, h5, hmemS, hmlen, hlmr]
      rw [show renderMembersRest renderChar ((k', vv') :: kvs') =
        ',' :: (renderMember renderChar (k', vv') ++
          renderMembersRest renderChar kvs') from rfl]
      simp [Nat.add_assoc]
      try exact rg_index_congr raw false (by omega)

theorem repairLenient_eq_render (v : Json) (hok : jsonOk v = true) :
    repairJsonText (renderLenient v) = render v := by
  unfold repairJsonText renderLenient render
  have h := (scanAll (renderWith renderLenientChar v).length).1 v
    (renderWith renderLenientChar v) [] [] (Nat.le_refl _) hok evenRun_nil (by simp)
  simp only [List.nil_append, List.length_nil, Nat.zero_add] at h
  rw [h, rg_end _ _ _ (Nat.le_refl _)]
  simp

/-- C6: a reply that is well formed except for literal newline characters
inside quoted string values (`renderLenient v`) is turned by the repair
pass into the strictly well-formed reply, which then parses back to the
original structured value; consequently the full parser succeeds on such
a reply. -/
theorem repair_restores_newlines (v : Json) (hok : jsonOk v = true) :
    jsonLoads (repairJsonText (renderLenient v)) = some v ∧
    ∃ w, parseResponse (renderLenient v) = some w := by
  have hA : jsonLoads (repairJsonText (renderLenient v)) = some v := by
    rw [repairLenient_eq_render v hok]
    exact jsonLoads_render v hok
  refine ⟨hA, ?_⟩
  unfold parseResponse
  cases h1 : jsonLoads (renderLenient v) with
  | some p => exact ⟨p, rfl⟩
  | none =>
    dsimp only
    rw [hA]
    exact ⟨v, rfl⟩

/-- Witness for C6: an object whose string value contains a literal
newline. -/
theorem repair_restores_newlines_witness :
    jsonLoads (repairJsonText (renderLenient (Json.obj [("a".toList,
      Json.str "x\ny".toList)]))) =
      some (Json.obj [("a".toList, Json.str "x\ny".toList)]) ∧
    ∃ w, parseResponse (renderLenient (Json.obj [("a".toList,
      Json.str "x\ny".toList)])) = some w :=
  repair_restores_newlines (Json.obj [("a".toList, Json.str "x\ny".toList)]) (by rfl)

end Pembahasan
